import Mathlib

/-!
Verification development for the `float-diff` Rust crate.

The crate computes and summarizes differences between pairs of 64-bit
floating-point values.  We give a shallow embedding of its data model and
operations:

* `F64` models an IEEE-754 binary64 value as a sign-magnitude extended
  rational: quiet NaN with a sign bit, signed infinity, and a finite value
  made of a sign bit and a non-negative rational magnitude (so that `-0.0`
  and `+0.0` are distinct values that compare numerically equal).  Rounding
  of finite arithmetic is abstracted away (finite arithmetic is exact), but
  all special-value behaviour (NaN propagation, signed zeros, infinities,
  IEEE comparison semantics where NaN compares false) is modelled.
  The sign of a NaN freshly produced by an invalid operation (Inf * 0,
  Inf - Inf, 0/0, Inf % x, ...) is architecture-specific in the source
  language; we model the x86-64 behaviour, where such "default" quiet NaNs
  have the sign bit set, and where an operation on NaN operands propagates
  the first NaN operand with its sign.  `Wf x` says that `x` is a value
  actually denoting an f64 (the magnitude field of a finite value is
  non-negative).

* The metric functions `calc_diff_abs`, `calc_diff_rel`, `calc_diff_lesser`
  (src/util.rs; duplicated verbatim as `diff_abs`/`diff_rel`/`diff_lesser`
  in src/diff.rs), `diff_ulps` and `diff_cyclic`/`cyclic_range`
  (src/diff.rs; `calc_diff_cyclic` in util.rs is the same code), and the
  helpers `is_diff_worse` and `to_percent` (src/util.rs).

* `LogHistogram` (src/log_histogram.rs) with its `add` classification and
  the greedy bucket-reduction algorithm `reduced_histo`.

* `DiffPartSummary` (src/diff_part_summary.rs) and `DiffSummary`
  (src/diff_summary_f64.rs) with `new`, `add` and `is_ok`.

Rust `assert!` failures are modelled by `Option`: a function returns `none`
exactly when the corresponding assertion would panic.
-/

inductive F64 where
  | nan (neg : Bool)
  | inf (neg : Bool)
  | fin (neg : Bool) (m : ℚ)
deriving DecidableEq

namespace F64

/-- The rational value denoted by a finite `F64` (0 for NaN/infinity; only
used on the `fin` constructor). -/
def val : F64 → ℚ
  | .fin neg m => if neg then -m else m
  | _ => 0

/-- Canonical finite value of a rational: sign bit taken from the sign of the
number, non-negative magnitude.  `mkFin 0 = +0.0`. -/
def mkFin (q : ℚ) : F64 :=
  if q < 0 then .fin true (-q) else .fin false q

/-- Well-formed: the magnitude field of a finite value is non-negative.
Exactly the `F64` values that denote an actual Rust `f64`. -/
def Wf : F64 → Prop
  | .fin _ m => 0 ≤ m
  | _ => True

instance : DecidablePred Wf := by
  intro x
  cases x <;> simp [Wf] <;> infer_instance

def is_nan : F64 → Bool
  | .nan _ => true
  | _ => false

def is_infinite : F64 → Bool
  | .inf _ => true
  | _ => false

def is_finite : F64 → Bool
  | .fin _ _ => true
  | _ => false

def is_sign_negative : F64 → Bool
  | .nan s => s
  | .inf s => s
  | .fin s _ => s

def is_sign_positive (x : F64) : Bool := !x.is_sign_negative

/-- Rust `f64::abs`: clears the sign bit (also on NaN). -/
def abs : F64 → F64
  | .nan _ => .nan false
  | .inf _ => .inf false
  | .fin _ m => .fin false m

/-- IEEE negation: flips the sign bit (also on NaN). -/
def neg : F64 → F64
  | .nan s => .nan (!s)
  | .inf s => .inf (!s)
  | .fin s m => .fin (!s) m

/-- Rust `x + y` on f64 (x86-64 NaN semantics: the first NaN operand is
propagated with its sign; `Inf + -Inf` is invalid and yields the default
quiet NaN, whose sign bit is set on x86-64).  An exact zero sum is `-0.0`
only when both operands have their sign bit set, per IEEE round-to-nearest. -/
def add : F64 → F64 → F64
  | .nan s, _ => .nan s
  | _, .nan s => .nan s
  | .inf a, .inf b => if a = b then .inf a else .nan true
  | .inf a, .fin _ _ => .inf a
  | .fin _ _, .inf b => .inf b
  | .fin s m, .fin t k =>
    let d := (if s then -m else m) + (if t then -k else k)
    if d = 0 then .fin (s && t) 0 else mkFin d

/-- Rust `x - y` on f64 (same NaN conventions as `add`; `Inf - Inf` with
equal signs is invalid).  An exact zero difference is `-0.0` only for
`-0.0 - (+0.0)`. -/
def sub : F64 → F64 → F64
  | .nan s, _ => .nan s
  | _, .nan s => .nan s
  | .inf a, .inf b => if a = b then .nan true else .inf a
  | .inf a, .fin _ _ => .inf a
  | .fin _ _, .inf b => .inf (!b)
  | .fin s m, .fin t k =>
    let d := (if s then -m else m) - (if t then -k else k)
    if d = 0 then .fin (s && !t) 0 else mkFin d

/-- Rust `x * y` on f64.  `Inf * 0` is invalid (default quiet NaN, sign bit
set on x86-64); otherwise the sign is the xor of the operand signs. -/
def mul : F64 → F64 → F64
  | .nan s, _ => .nan s
  | _, .nan s => .nan s
  | .inf a, .inf b => .inf (a != b)
  | .inf a, .fin t k => if k = 0 then .nan true else .inf (a != t)
  | .fin s m, .inf b => if m = 0 then .nan true else .inf (s != b)
  | .fin s m, .fin t k => .fin (s != t) (m * k)

/-- Rust `x / y` on f64.  `Inf / Inf` and `0 / 0` are invalid; `x / Inf` is a
signed zero; `x / 0` with `x ≠ 0` is a signed infinity. -/
def div : F64 → F64 → F64
  | .nan s, _ => .nan s
  | _, .nan s => .nan s
  | .inf _, .inf _ => .nan true
  | .inf a, .fin t _ => .inf (a != t)
  | .fin s _, .inf b => .fin (s != b) 0
  | .fin s m, .fin t k =>
    if k = 0 then (if m = 0 then .nan true else .inf (s != t))
    else .fin (s != t) (m / k)

/-- Truncation toward zero of a rational, as an integer. -/
def truncQ (q : ℚ) : ℤ := if 0 ≤ q then ⌊q⌋ else -⌊-q⌋

/-- Rust `x % y` on f64: remainder with truncating division; the result has
the sign of the dividend (also when it is zero).  `Inf % y` and `x % 0` are
invalid operations. -/
def rem : F64 → F64 → F64
  | .nan s, _ => .nan s
  | _, .nan s => .nan s
  | .inf _, _ => .nan true
  | .fin s m, .inf _ => .fin s m
  | .fin s m, .fin t k =>
    if k = 0 then .nan true
    else
      let vx := if s then -m else m
      let vy := if t then -k else k
      let r := vx - vy * (truncQ (vx / vy) : ℚ)
      if r = 0 then .fin s 0 else mkFin r

/-- Rust `x < y` on f64: false whenever an operand is NaN; `-0.0 < 0.0` is
false; infinities compare as extreme values. -/
def lt : F64 → F64 → Bool
  | .nan _, _ => false
  | _, .nan _ => false
  | .inf a, .inf b => a && !b
  | .inf a, .fin _ _ => a
  | .fin _ _, .inf b => !b
  | .fin s m, .fin t k => decide ((if s then -m else m) < (if t then -k else k))

/-- Rust `x <= y` on f64: false whenever an operand is NaN. -/
def le : F64 → F64 → Bool
  | .nan _, _ => false
  | _, .nan _ => false
  | .inf a, .inf b => a || !b
  | .inf a, .fin _ _ => a
  | .fin _ _, .inf b => !b
  | .fin s m, .fin t k => decide ((if s then -m else m) ≤ (if t then -k else k))

/-- Rust `x == y` on f64: false whenever an operand is NaN; `-0.0 == 0.0`. -/
def eq : F64 → F64 → Bool
  | .nan _, _ => false
  | _, .nan _ => false
  | .inf a, .inf b => a == b
  | .inf _, .fin _ _ => false
  | .fin _ _, .inf _ => false
  | .fin s m, .fin t k => decide ((if s then -m else m) = (if t then -k else k))

/-- Rust `x != y` on f64 (true whenever an operand is NaN). -/
def ne (x y : F64) : Bool := !eq x y

end F64

/-- Shorthand for the canonical finite `F64` of a rational literal. -/
def qF (q : ℚ) : F64 := F64.mkFin q

/-- The f64 literal `0.0`. -/
def fZero : F64 := F64.fin false 0

-- Sanity examples for the model (exercised by later witnesses as well).
unseal Rat.add Rat.sub Rat.mul Rat.inv in
example : F64.add (F64.fin true 0) (F64.fin true 0) = F64.fin true 0 := by decide
unseal Rat.add Rat.sub Rat.mul Rat.inv in
example : F64.sub (qF 721) (qF 720) = qF 1 := by decide
unseal Rat.add Rat.sub Rat.mul Rat.inv in
example : F64.rem (qF 721) (qF 360) = qF 1 := by decide
unseal Rat.add Rat.sub Rat.mul Rat.inv in
example : F64.rem (qF (-179)) (qF 360) = F64.fin true 179 := by decide
unseal Rat.add Rat.sub Rat.mul Rat.inv in
example : F64.mul (F64.inf false) (F64.fin false 0) = F64.nan true := by decide
unseal Rat.add Rat.sub Rat.mul Rat.inv in
example : F64.le (F64.nan false) (F64.nan false) = false := by decide

/-! ## The metric functions (src/util.rs, duplicated in src/diff.rs) -/

/-- Source: `calc_diff_abs` in src/util.rs lines 3-15 (duplicated verbatim
as `diff_abs` in src/diff.rs lines 16-28).  Returns the absolute difference
and the sign-bit-inequality flag. -/
def calc_diff_abs (x y : F64) : F64 × Bool :=
  let diff_abs :=
    if x.is_nan && y.is_nan then fZero
    else if x.is_infinite && y.is_infinite then
      (if x.is_sign_negative == y.is_sign_negative then fZero else F64.inf false)
    else (F64.sub x y).abs
  let sign_change := x.is_sign_negative != y.is_sign_negative
  (diff_abs, sign_change)

/-- Source: `calc_diff_rel` in src/util.rs lines 19-25 (duplicated as
`diff_rel` in src/diff.rs).  Scales the absolute difference by
`2 / (|x| + |y|)` whenever the difference is not (numerically equal to) 0. -/
def calc_diff_rel (x y : F64) : F64 × Bool :=
  let dc := calc_diff_abs x y
  let diff :=
    if !(F64.eq dc.1 fZero) then
      F64.mul dc.1 (F64.div (qF 2) (F64.add x.abs y.abs))
    else dc.1
  (diff, dc.2)

/-- Source: `calc_diff_lesser` in src/util.rs lines 32-42 (duplicated as
`diff_lesser` in src/diff.rs).  Applies relative scaling only when the
absolute difference is nonzero, finite, and `|x| + |y| > 2`. -/
def calc_diff_lesser (x y : F64) : F64 × Bool :=
  let dc := calc_diff_abs x y
  let diff :=
    if !(F64.eq dc.1 fZero) && !dc.1.is_infinite then
      let sum_abs := F64.add x.abs y.abs
      if F64.lt (qF 2) sum_abs then
        F64.mul dc.1 (F64.div (qF 2) sum_abs)
      else dc.1
    else dc.1
  (diff, dc.2)

/-- Source: `diff_ulps` in src/diff.rs lines 62-76.  The call
`x.ulps(&y)` into the external `float_cmp` crate (the signed distance
between the order-preserving integer images of the two bit patterns) is
abstracted as the parameter `uf`; every statement about `diff_ulps` is made
for the appropriate class of such functions. -/
def diff_ulps (uf : F64 → F64 → ℤ) (x y : F64) : F64 × Bool :=
  let ulps :=
    if x.is_nan != y.is_nan then F64.nan false
    else if x.is_nan then fZero
    else if x.is_finite != y.is_finite then F64.inf false
    else (F64.mkFin (uf x y : ℚ)).abs
  (ulps, x.is_sign_negative != y.is_sign_negative)

/-- Source: `cyclic_range` in src/diff.rs lines 109-119 (same code in
src/util.rs).  Adjusts a value to fall within a cyclic range using the
truncating `%` followed by a conditional shift by the span. -/
def cyclic_range (x range_min range_max : F64) : F64 :=
  let span := F64.sub range_max range_min
  let xmod := F64.rem x span
  if F64.lt xmod range_min then F64.add xmod span
  else if F64.lt range_max xmod then F64.sub xmod span
  else xmod

/-- Source: `diff_cyclic` in src/diff.rs lines 83-106 (same code as
`calc_diff_cyclic` in src/util.rs lines 49-72).  The two `assert!`
preconditions on the range are modelled by returning `none`. -/
def diff_cyclic (x y range_min range_max : F64) : Option (F64 × Bool) :=
  if !(F64.lt range_min range_max) then none
  else if !(F64.le range_min fZero && F64.le fZero range_max) then none
  else
    let xmod := cyclic_range x range_min range_max
    let ymod := cyclic_range y range_min range_max
    let diff1 :=
      if (xmod.is_nan && !x.is_nan) || (ymod.is_nan && !y.is_nan) then
        (F64.nan false, true)
      else calc_diff_abs xmod ymod
    let diff2 :=
      if F64.lt xmod ymod then
        calc_diff_abs (F64.sub (F64.add xmod range_max) range_min) ymod
      else if F64.lt ymod xmod then
        calc_diff_abs xmod (F64.sub (F64.add ymod range_max) range_min)
      else diff1
    if F64.lt diff2.1 diff1.1 then some (diff2.1, true)
    else some (diff1.1, x.ne xmod || y.ne ymod || diff1.2)

/-- Source: `is_diff_worse` in src/util.rs lines 91-94 (duplicated in
src/diff.rs lines 9-12).  The `assert!` that both diffs are sign-positive is
modelled by `none`. -/
def is_diff_worse (a b : F64) : Option Bool :=
  if a.is_sign_positive && b.is_sign_positive then
    some ((a.is_nan && !b.is_nan) || F64.lt b a)
  else none

-- Replicate the crate's own unit tests for the metric functions as sanity
-- checks of the embedding (src/util.rs `mod tests`).
unseal Rat.add Rat.sub Rat.mul Rat.inv in
example : calc_diff_abs (qF 0) (qF (1/2)) = (qF (1/2), false) := by decide
unseal Rat.add Rat.sub Rat.mul Rat.inv in
example : calc_diff_abs (F64.fin true 0) fZero = (fZero, true) := by decide
unseal Rat.add Rat.sub Rat.mul Rat.inv in
example : calc_diff_abs (F64.nan false) (F64.nan true) = (fZero, true) := by decide
unseal Rat.add Rat.sub Rat.mul Rat.inv in
example : calc_diff_abs (F64.inf false) (F64.inf true) = (F64.inf false, true) := by decide
unseal Rat.add Rat.sub Rat.mul Rat.inv in
example : calc_diff_rel (qF 10) (qF (21/2)) = (qF (2/41), false) := by decide
unseal Rat.add Rat.sub Rat.mul Rat.inv in
example : calc_diff_rel (F64.inf false) (F64.inf true) = (F64.nan true, true) := by decide
unseal Rat.add Rat.sub Rat.mul Rat.inv in
example : calc_diff_lesser (qF 10) (qF (21/2)) = (qF (2/41), false) := by decide
unseal Rat.add Rat.sub Rat.mul Rat.inv in
example : calc_diff_lesser (F64.inf false) (F64.inf true) = (F64.inf false, true) := by decide
unseal Rat.add Rat.sub Rat.mul Rat.inv in
example : diff_cyclic (qF (-179)) (qF 179) (qF (-180)) (qF 180) = some (qF 2, true) := by decide
unseal Rat.add Rat.sub Rat.mul Rat.inv in
example : diff_cyclic (qF 181) (qF 181) (qF (-180)) (qF 180) = some (fZero, true) := by decide
unseal Rat.add Rat.sub Rat.mul Rat.inv in
example : diff_cyclic (F64.nan false) (F64.nan false) (qF (-180)) (qF 180)
    = some (fZero, true) := by decide

/-! ## Percent rounding (src/util.rs lines 98-108) -/

/-- Rust `f64::round` (round half away from zero) followed by `as usize`,
for the non-negative values that occur in `to_percent`. -/
def roundCast (q : ℚ) : ℕ := (⌊q + 1/2⌋).toNat

/-- Source: `to_percent` in src/util.rs lines 98-108.  The f64 computation
`100f64 * num_part as f64 / num_all as f64` is modelled exactly in ℚ. -/
def to_percent (num_part num_all : ℕ) : ℕ :=
  let percent : ℚ := 100 * (num_part : ℚ) / (num_all : ℚ)
  if percent < 1 ∧ num_part ≠ 0 then 1
  else if 99 < percent ∧ num_part ≠ num_all then 99
  else roundCast percent

/-- Modelled from the spec for comparison with `to_percent` ("rounds
`100 * part/total` to the nearest integer, except it never reports 0% for a
nonzero part (floors such cases to 1%) and never reports 100% for a part
that is not the entire total (caps such cases to 99%)"). -/
def to_percent_spec (part total : ℕ) : ℕ :=
  let r := roundCast (100 * (part : ℚ) / (total : ℚ))
  if part ≠ 0 ∧ r = 0 then 1
  else if part ≠ total ∧ r = 100 then 99
  else r

/-! ## LogHistogram (src/log_histogram.rs) -/

/-- The truncation toward zero of the base-10 logarithm of a positive
rational, mirroring Rust's `x.log10() as isize`.  For `x ≥ 1` this is
`⌊log10 x⌋`; for `0 < x < 1` it is `⌈log10 x⌉` (truncation toward zero),
so any `x` strictly between consecutive negative powers of ten lands one
exponent above the floor.  The saturating/NaN cast behaviour of `as isize`
for non-positive arguments is included for totality (`log10` of a negative
number is NaN, which casts to 0; `log10 0 = -inf` saturates to
`isize::MIN`). -/
def truncLog10 (q : ℚ) : ℤ :=
  if q < 0 then 0
  else if q = 0 then -(2 ^ 63)
  else
    let e := Int.log 10 q
    if 0 ≤ e then e
    else if q = (10 : ℚ) ^ e then e
    else e + 1

/-- The exponent Rust computes as `diff.log10() as isize` on an `F64`. -/
def truncLog10F (x : F64) : ℤ := truncLog10 x.val

/-- LogHistogram state (src/log_histogram.rs lines 12-29).  The Rust
`HashMap<isize, usize>` of per-exponent counts is modelled as a total
function `ℤ → ℕ` (absent keys count 0). -/
structure LogHistogram where
  num_nan : ℕ
  num_inf : ℕ
  num_zero : ℕ
  max_display_buckets : ℕ
  log10_buckets : ℤ → ℕ

namespace LogHistogram

/-- Source: `LogHistogram::new` (lines 32-41); `assert!(max_display_buckets > 2)`
is modelled by `none`. -/
def new (max_display_buckets : ℕ) : Option LogHistogram :=
  if 2 < max_display_buckets then
    some ⟨0, 0, 0, max_display_buckets, fun _ => 0⟩
  else none

/-- Source: `LogHistogram::add` (lines 44-60).  `assert!(diff.is_sign_positive())`
is modelled by `none`; otherwise the magnitude is classified into exactly one
of the NaN / infinity / zero counters or the truncated-log10 bucket. -/
def add (h : LogHistogram) (diff : F64) : Option LogHistogram :=
  if !diff.is_sign_positive then none
  else if diff.is_nan then some { h with num_nan := h.num_nan + 1 }
  else if diff.is_infinite then some { h with num_inf := h.num_inf + 1 }
  else if F64.eq diff fZero then some { h with num_zero := h.num_zero + 1 }
  else
    let exp := truncLog10F diff
    some { h with
      log10_buckets := Function.update h.log10_buckets exp (h.log10_buckets exp + 1) }

end LogHistogram

/-! ### Bucket reduction (`LogHistogram::reduced_histo`, lines 64-120)

The Rust code materializes `log10_buckets` into a key-sorted `BTreeMap`
whose values are `(exp_min, exp_max, count)` triples, plus the ascending
key list `keys_asc`.  We model that state as a key-sorted list of
`RBucket`s (the list order plays the role of both `keys_asc` and the
`BTreeMap` traversal order), and the while loop as a fuel-indexed loop
(the fuel `initial length` is enough, because each iteration removes
exactly one bucket). -/

structure RBucket where
  key : ℤ
  emin : ℤ
  emax : ℤ
  count : ℕ
deriving DecidableEq

instance : Inhabited RBucket := ⟨⟨0, 0, 0, 0⟩⟩

/-- The merged bucket of lines 111-114: the surviving key, the union of the
two exponent ranges, and the summed count. -/
def mergeB (a b : RBucket) (keepFirst : Bool) : RBucket :=
  ⟨if keepFirst then a.key else b.key,
   min a.emin b.emin, max a.emax b.emax, a.count + b.count⟩

/-- Replace the adjacent buckets at positions `j` and `j+1` by their merge
(`remove`/`insert` on the `BTreeMap` plus `keys_asc.remove`, lines 113-116;
adjacency in the sorted key list is exactly `BTreeMap` key adjacency). -/
def mergeAt : List RBucket → ℕ → Bool → List RBucket
  | a :: b :: rest, 0, keepFirst => mergeB a b keepFirst :: rest
  | a :: rest, j+1, keepFirst => a :: mergeAt rest j keepFirst
  | l, _, _ => l

/-- The minimum count over a bucket list (0 for the empty list). -/
def minCount : List RBucket → ℕ
  | [] => 0
  | b :: rest => rest.foldl (fun m x => min m x.count) b.count

/-- The index of the globally smallest bucket, lines 77-84: the fold with a
strict `count < val_smallest.2` over the ascending-key traversal selects the
first position attaining the minimum count. -/
def idxSmallest (l : List RBucket) : ℕ := l.findIdx (fun b => b.count == minCount l)

/-- One iteration of the collapse loop, lines 77-117: find the smallest
bucket; merge it into its only neighbor when it is first or last, otherwise
into whichever neighbor has the strictly smaller count (ties favor the
lower-exponent neighbor). -/
def stepB (l : List RBucket) : List RBucket :=
  let i := idxSmallest l
  if i = 0 then mergeAt l 0 false
  else if l.length - 1 ≤ i then mergeAt l (i - 1) true
  else if (l.getD (i + 1) default).count < (l.getD (i - 1) default).count then
    mergeAt l i false
  else mergeAt l (i - 1) true

/-- The while loop of line 73, with explicit fuel. -/
def reduceLoop : ℕ → ℕ → List RBucket → List RBucket
  | 0, _, l => l
  | f + 1, maxB, l => if maxB < l.length then reduceLoop f maxB (stepB l) else l

/-- Lines 66-72: each exponent key of the histogram becomes a singleton
bucket `(key, key, count)`; `o` is the key-sorted association list of the
`log10_buckets` hash map. -/
def initBuckets (o : List (ℤ × ℕ)) : List RBucket :=
  o.map (fun p => ⟨p.1, p.1, p.1, p.2⟩)

/-- Source: `LogHistogram::reduced_histo` (lines 64-120) on the key-sorted
entry list `o` of `log10_buckets`; the `assert!(self.max_display_buckets > 2)`
of line 65 is modelled by `none`. -/
def reduced_histo (maxB : ℕ) (o : List (ℤ × ℕ)) : Option (List RBucket) :=
  if 2 < maxB then some (reduceLoop (initBuckets o).length maxB (initBuckets o))
  else none

/-- Total count held in a bucket list. -/
def bsum (l : List RBucket) : ℕ := (l.map RBucket.count).sum

/-- Total count held in an exponent/count association list. -/
def osum (o : List (ℤ × ℕ)) : ℕ := (o.map Prod.snd).sum

/-! ## DiffPartSummary (src/diff_part_summary.rs) and
DiffSummary (src/diff_summary_f64.rs) -/

structure DiffPartSummary where
  sample_x : F64
  sample_y : F64
  sample_index : ℕ
  count : ℕ

namespace DiffPartSummary

/-- Source: `DiffPartSummary::new` (lines 26-33). -/
def new : DiffPartSummary := ⟨F64.nan false, F64.nan false, 0, 0⟩

/-- Source: `DiffPartSummary::add` (lines 37-44). -/
def add (s : DiffPartSummary) (x y : F64) (index : ℕ) (worst : Bool) : DiffPartSummary :=
  if worst || s.count == 0 then ⟨x, y, index, s.count + 1⟩
  else ⟨s.sample_x, s.sample_y, s.sample_index, s.count + 1⟩

end DiffPartSummary

/-- DiffSummary state (src/diff_summary_f64.rs lines 47-81).  The string
labels `name_base`/`name_detail` play no role in any claim and are omitted;
the bound metric function `calc_diff` is the explicit `calcF` argument of `add`. -/
structure DiffSummary where
  diff : F64
  allow_diff : F64
  allow_sign : Bool
  num_total : ℕ
  num_diff_fail : ℕ
  summary_diff : DiffPartSummary
  summary_sign : DiffPartSummary
  histo : LogHistogram

namespace DiffSummary

/-- Source: `DiffSummary::new` (lines 87-101); `none` when the embedded
`LogHistogram::new` assertion fails. -/
def new (allow_diff : F64) (allow_sign : Bool) (bucket_count : ℕ) : Option DiffSummary :=
  (LogHistogram.new bucket_count).map
    (fun h => ⟨F64.fin false 0, allow_diff, allow_sign, 0, 0,
               DiffPartSummary.new, DiffPartSummary.new, h⟩)

/-- Source: `DiffSummary::add` (lines 129-149).  `none` models a panic of
either the `is_diff_worse` assertion or the `LogHistogram::add` assertion
(a panic aborts, so a failed call yields no successor state).  The negated
comparisons `!(diff == 0.0)` and `!(diff <= self.allow_diff)` keep the Rust
NaN behaviour. -/
def add (calcF : F64 → F64 → F64 × Bool) (s : DiffSummary) (x y : F64) (index : ℕ) :
    Option DiffSummary :=
  let dc := calcF x y
  match is_diff_worse dc.1 s.diff with
  | none => none
  | some is_diff_worst =>
    let nonzero := !(F64.eq dc.1 fZero)
    let summary_diff := if nonzero then s.summary_diff.add x y index is_diff_worst
                        else s.summary_diff
    let diff := if nonzero && is_diff_worst then dc.1 else s.diff
    let num_diff_fail := if nonzero && !(F64.le dc.1 s.allow_diff) then s.num_diff_fail + 1
                         else s.num_diff_fail
    let summary_sign := if dc.2 then s.summary_sign.add x y index false else s.summary_sign
    match s.histo.add dc.1 with
    | none => none
    | some h =>
      some ⟨diff, s.allow_diff, s.allow_sign, s.num_total + 1, num_diff_fail,
            summary_diff, summary_sign, h⟩

/-- Source: `DiffSummary::is_ok` (lines 152-154). -/
def is_ok (s : DiffSummary) : Bool :=
  F64.le s.diff s.allow_diff && (s.allow_sign || s.summary_sign.count == 0)

end DiffSummary

/-- Feed a stream of `(x, y, index)` triples through `DiffSummary::add`,
stopping at the first panic. -/
def runAdds (calcF : F64 → F64 → F64 × Bool) :
    DiffSummary → List (F64 × F64 × ℕ) → Option DiffSummary
  | s, [] => some s
  | s, (x, y, i) :: rest =>
    match DiffSummary.add calcF s x y i with
    | none => none
    | some s1 => runAdds calcF s1 rest

/-! ## Helper lemmas about the value model -/

theorem F64.mkFin_of_nonneg {q : ℚ} (h : 0 ≤ q) : F64.mkFin q = F64.fin false q := by
  simp [F64.mkFin, not_lt.2 h]

theorem F64.abs_mkFin (q : ℚ) : (F64.mkFin q).abs = F64.fin false |q| := by
  unfold F64.mkFin
  by_cases h : q < 0
  · simp [h, F64.abs, abs_of_neg h]
  · simp [h, F64.abs, abs_of_nonneg (not_lt.1 h)]

/-- The absolute difference of two finite values is the canonical finite
value of the absolute value of their exact difference. -/
theorem F64.abs_sub_fin (s t : Bool) (m k : ℚ) :
    ((F64.fin s m).sub (F64.fin t k)).abs
      = F64.mkFin |(if s then -m else m) - (if t then -k else k)| := by
  unfold F64.sub
  by_cases h : (if s then -m else m) - (if t then -k else k) = 0
  · simp [h, F64.abs, F64.mkFin]
  · simp only [if_neg h, F64.abs_mkFin]
    rw [F64.mkFin_of_nonneg (abs_nonneg _)]

/-! ## Claim C1 -/

/-- C1: for all finite `x` and `y`, the absolute-difference metric returns
magnitude `|x − y|` (the canonical non-negative value of the exact
difference) and `sign_changed` equal to sign-bit inequality; on the special
values it returns `calc_diff_abs(NaN, NaN) = (0, false)`,
`calc_diff_abs(NaN, -NaN) = (0, true)`, `calc_diff_abs(+Inf, +Inf) = (0, false)`,
`calc_diff_abs(+Inf, -Inf) = (+Inf, true)`, and `calc_diff_abs(+Inf, NaN)`
has NaN magnitude with `sign_changed` false. -/
theorem thm_C1_calc_diff_abs :
    (∀ x y : F64, x.is_finite = true → y.is_finite = true →
      (calc_diff_abs x y).1 = F64.mkFin |x.val - y.val| ∧
      (calc_diff_abs x y).2 = (x.is_sign_negative != y.is_sign_negative)) ∧
    calc_diff_abs (F64.nan false) (F64.nan false) = (fZero, false) ∧
    calc_diff_abs (F64.nan false) (F64.nan true) = (fZero, true) ∧
    calc_diff_abs (F64.inf false) (F64.inf false) = (fZero, false) ∧
    calc_diff_abs (F64.inf false) (F64.inf true) = (F64.inf false, true) ∧
    (calc_diff_abs (F64.inf false) (F64.nan false)).1.is_nan = true ∧
    (calc_diff_abs (F64.inf false) (F64.nan false)).2 = false := by
  refine ⟨?_, by decide, by decide, by decide, by decide, by decide, by decide⟩
  intro x y hx hy
  cases x with
  | nan s => simp [F64.is_finite] at hx
  | inf s => simp [F64.is_finite] at hx
  | fin s m =>
    cases y with
    | nan t => simp [F64.is_finite] at hy
    | inf t => simp [F64.is_finite] at hy
    | fin t k =>
      constructor
      · simp [calc_diff_abs, F64.is_nan, F64.is_infinite, F64.abs_sub_fin, F64.val]
      · simp [calc_diff_abs]

/-- Witness for C1 at the concrete finite pair `(3, 5)`. -/
theorem wit_C1_calc_diff_abs :
    (qF 3).is_finite = true ∧ (qF 5).is_finite = true ∧
    ((calc_diff_abs (qF 3) (qF 5)).1 = F64.mkFin |(qF 3).val - (qF 5).val| ∧
     (calc_diff_abs (qF 3) (qF 5)).2 = ((qF 3).is_sign_negative != (qF 5).is_sign_negative)) := by
  refine ⟨by decide, by decide, thm_C1_calc_diff_abs.1 (qF 3) (qF 5) (by decide) (by decide)⟩

/-! ## Claim C6 -/

unseal Rat.add Rat.sub Rat.mul Rat.inv in
/-- C6: the cyclic metric (whose domain reduction composes the truncating
`%` with a conditional shift by the span, giving flooring-style reduction
into the range) satisfies `diff_cyclic(0, 721, -180, 180) = (1, true)`,
`diff_cyclic(-180, 180, -180, 180) = (0, true)`, and
`diff_cyclic(-179, -179, -180, 180) = (0, false)`. -/
theorem thm_C6_cyclic :
    diff_cyclic (qF 0) (qF 721) (qF (-180)) (qF 180) = some (qF 1, true) ∧
    diff_cyclic (qF (-180)) (qF 180) (qF (-180)) (qF 180) = some (fZero, true) ∧
    diff_cyclic (qF (-179)) (qF (-179)) (qF (-180)) (qF 180) = some (fZero, false) := by
  refine ⟨by decide, by decide, by decide⟩

/-! ## Claim C10 -/

/-- C10: for every `F64` value `x` — including NaN, -NaN, the infinities and
both signed zeros — each of `calc_diff_abs`, `calc_diff_rel`,
`calc_diff_lesser` and `diff_ulps` applied to the identical pair `(x, x)`
returns exactly `(+0.0, false)`.  For `diff_ulps` this holds for every
bit-distance function `uf` with `uf x x = 0` (every implementation that
subtracts the integer images of the two equal bit patterns satisfies
this). -/
theorem thm_C10_identical_pairs :
    ∀ (x : F64) (uf : F64 → F64 → ℤ), uf x x = 0 →
      calc_diff_abs x x = (fZero, false) ∧
      calc_diff_rel x x = (fZero, false) ∧
      calc_diff_lesser x x = (fZero, false) ∧
      diff_ulps uf x x = (fZero, false) := by
  intro x uf huf
  have habs : calc_diff_abs x x = (fZero, false) := by
    cases x with
    | nan s => simp [calc_diff_abs, F64.is_nan, F64.is_sign_negative, fZero]
    | inf s => simp [calc_diff_abs, F64.is_nan, F64.is_infinite, F64.is_sign_negative, fZero]
    | fin s m =>
      simp [calc_diff_abs, F64.is_nan, F64.is_infinite, F64.abs_sub_fin, F64.mkFin, fZero]
  have hulps : diff_ulps uf x x = (fZero, false) := by
    unfold diff_ulps
    rw [huf]
    cases x with
    | nan s => simp [F64.is_nan, fZero]
    | inf s =>
      simp [F64.is_nan, F64.is_finite, F64.mkFin, F64.abs, fZero]
    | fin s m =>
      simp [F64.is_nan, F64.is_finite, F64.mkFin, F64.abs, fZero]
  refine ⟨habs, ?_, ?_, hulps⟩
  · unfold calc_diff_rel
    rw [habs]
    simp [F64.eq, fZero]
  · unfold calc_diff_lesser
    rw [habs]
    simp [F64.eq, fZero]

/-- Witness for C10 at `x = -NaN` with the constant-zero distance
function. -/
theorem wit_C10_identical_pairs :
    (fun (_ _ : F64) => (0 : ℤ)) (F64.nan true) (F64.nan true) = 0 ∧
    (calc_diff_abs (F64.nan true) (F64.nan true) = (fZero, false) ∧
     calc_diff_rel (F64.nan true) (F64.nan true) = (fZero, false) ∧
     calc_diff_lesser (F64.nan true) (F64.nan true) = (fZero, false) ∧
     diff_ulps (fun _ _ => 0) (F64.nan true) (F64.nan true) = (fZero, false)) :=
  ⟨rfl, thm_C10_identical_pairs (F64.nan true) (fun _ _ => 0) rfl⟩

/-! ## Claim C4 -/

theorem F64.le_of_nan_left {x y : F64} (h : x.is_nan = true) : F64.le x y = false := by
  cases x with
  | nan s => cases y <;> rfl
  | inf s => simp [F64.is_nan] at h
  | fin s m => simp [F64.is_nan] at h

unseal Rat.add Rat.sub Rat.mul Rat.inv in
/-- C4: `is_ok()` is true iff the worst recorded magnitude is `≤` the
configured tolerance and (sign changes are allowed or the sign-change event
count is zero); a NaN worst magnitude always yields false; and after adding
the five pairs `(0,1), (2,1), (1,10), (0.1,-0.1), (NaN,NaN)` under the
absolute metric with tolerance 1.0 and sign changes disallowed, `is_ok()`
is false. -/
theorem thm_C4_is_ok :
    (∀ s : DiffSummary,
       s.is_ok = true ↔
         (F64.le s.diff s.allow_diff = true ∧
          (s.allow_sign = true ∨ s.summary_sign.count = 0))) ∧
    (∀ s : DiffSummary, s.diff.is_nan = true → s.is_ok = false) ∧
    ((DiffSummary.new (qF 1) false 4).bind (fun s0 => runAdds calc_diff_abs s0
      [(qF 0, qF 1, 0), (qF 2, qF 1, 1), (qF 1, qF 10, 2),
       (qF (1/10), qF (-1/10), 3), (F64.nan false, F64.nan false, 4)])).map
      DiffSummary.is_ok = some false := by
  refine ⟨?_, ?_, by decide⟩
  · intro s
    simp [DiffSummary.is_ok]
  · intro s h
    simp [DiffSummary.is_ok, F64.le_of_nan_left h]

/-- Witness for the NaN clause of C4 at a concrete state with NaN worst
magnitude. -/
theorem wit_C4_is_ok :
    (DiffSummary.mk (F64.nan false) (qF 1) true 1 0 DiffPartSummary.new
      DiffPartSummary.new ⟨1, 0, 0, 3, fun _ => 0⟩).diff.is_nan = true ∧
    DiffSummary.is_ok (DiffSummary.mk (F64.nan false) (qF 1) true 1 0 DiffPartSummary.new
      DiffPartSummary.new ⟨1, 0, 0, 3, fun _ => 0⟩) = false :=
  ⟨rfl, thm_C4_is_ok.2.1 _ rfl⟩

/-! ## Claim C9 -/

/-- Each successful `add` increments `num_total` by exactly 1 and
`num_diff_fail` by at most 1. -/
theorem DiffSummary.add_counts (calcF : F64 → F64 → F64 × Bool) (s s1 : DiffSummary)
    (x y : F64) (i : ℕ) (h : DiffSummary.add calcF s x y i = some s1) :
    s1.num_total = s.num_total + 1 ∧ s1.num_diff_fail ≤ s.num_diff_fail + 1 := by
  unfold DiffSummary.add at h
  dsimp only at h
  split at h
  · exact absurd h (by simp)
  · split at h
    · exact absurd h (by simp)
    · simp only [Option.some.injEq] at h
      subst h
      refine ⟨rfl, ?_⟩
      dsimp only
      split
      · exact Nat.le_refl _
      · exact Nat.le_succ _

theorem runAdds_fail_le_total (calcF : F64 → F64 → F64 × Bool) :
    ∀ (inputs : List (F64 × F64 × ℕ)) (s s1 : DiffSummary),
      runAdds calcF s inputs = some s1 →
      s.num_diff_fail ≤ s.num_total → s1.num_diff_fail ≤ s1.num_total := by
  intro inputs
  induction inputs with
  | nil =>
    intro s s1 h hle
    simp only [runAdds, Option.some.injEq] at h
    exact h ▸ hle
  | cons p rest ih =>
    intro s s1 h hle
    obtain ⟨x, y, i⟩ := p
    simp only [runAdds] at h
    cases ha : DiffSummary.add calcF s x y i with
    | none => rw [ha] at h; exact absurd h (by simp)
    | some s2 =>
      rw [ha] at h
      obtain ⟨ht, hf⟩ := DiffSummary.add_counts calcF s s2 x y i ha
      exact ih s2 s1 h (by omega)

/-- C9: every `DiffSummary` reachable from a freshly constructed one by a
sequence of `add(x, y, index)` calls satisfies `num_diff_fail ≤ num_total`;
each successful `add` increments `num_total` by exactly 1 and
`num_diff_fail` by at most 1. -/
theorem thm_C9_fail_le_total :
    (∀ (calcF : F64 → F64 → F64 × Bool) (ad : F64) (asgn : Bool) (n : ℕ)
       (s0 : DiffSummary) (inputs : List (F64 × F64 × ℕ)) (s : DiffSummary),
       DiffSummary.new ad asgn n = some s0 → runAdds calcF s0 inputs = some s →
       s.num_diff_fail ≤ s.num_total) ∧
    (∀ (calcF : F64 → F64 → F64 × Bool) (s : DiffSummary) (x y : F64) (i : ℕ)
       (s1 : DiffSummary), DiffSummary.add calcF s x y i = some s1 →
       s1.num_total = s.num_total + 1 ∧ s1.num_diff_fail ≤ s.num_diff_fail + 1) := by
  constructor
  · intro calcF ad asgn n s0 inputs s hnew hrun
    have h0 : s0.num_diff_fail ≤ s0.num_total := by
      unfold DiffSummary.new LogHistogram.new at hnew
      split at hnew
      · simp only [Option.map_some', Option.some.injEq] at hnew
        rw [← hnew]
      · exact absurd hnew (by simp)
    exact runAdds_fail_le_total calcF inputs s0 s hrun h0
  · intro calcF s x y i s1 h
    exact DiffSummary.add_counts calcF s s1 x y i h

/-- Witness for C9: a concrete construction followed by one concrete add
of a `(NaN, NaN)` pair. -/
theorem wit_C9_fail_le_total :
    DiffSummary.new (qF 1) true 3
      = some (DiffSummary.mk (F64.fin false 0) (qF 1) true 0 0 DiffPartSummary.new
              DiffPartSummary.new ⟨0, 0, 0, 3, fun _ => 0⟩) ∧
    runAdds calc_diff_abs
      (DiffSummary.mk (F64.fin false 0) (qF 1) true 0 0 DiffPartSummary.new
        DiffPartSummary.new ⟨0, 0, 0, 3, fun _ => 0⟩)
      [(F64.nan false, F64.nan false, 0)]
      = some (DiffSummary.mk (F64.fin false 0) (qF 1) true 1 0 DiffPartSummary.new
              DiffPartSummary.new ⟨0, 0, 1, 3, fun _ => 0⟩) ∧
    (DiffSummary.mk (F64.fin false 0) (qF 1) true 1 0 DiffPartSummary.new
      DiffPartSummary.new ⟨0, 0, 1, 3, fun _ => 0⟩).num_diff_fail
      ≤ (DiffSummary.mk (F64.fin false 0) (qF 1) true 1 0 DiffPartSummary.new
          DiffPartSummary.new ⟨0, 0, 1, 3, fun _ => 0⟩).num_total :=
  ⟨rfl, rfl, thm_C9_fail_le_total.1 calc_diff_abs (qF 1) true 3 _
    [(F64.nan false, F64.nan false, 0)] _ rfl rfl⟩

/-! ## Claim C8 -/

/-- For a magnitude strictly between consecutive nonpositive powers of ten,
the truncated base-10 exponent is the floor plus one: in particular on
`(0.1, 1)` the floor `Int.log 10 q` is `-1` but the truncation is `0`. -/
theorem truncLog10_between (q : ℚ) (h1 : 1/10 < q) (h2 : q < 1) :
    Int.log 10 q = -1 ∧ truncLog10 q = 0 := by
  have hq : (0 : ℚ) < q := lt_trans (by norm_num) h1
  have hb : 1 < 10 := by norm_num
  have hlt : Int.log 10 q < 0 := by
    rw [← Int.lt_zpow_iff_log_lt hb hq]
    push_cast
    simpa using h2
  have hge : -1 ≤ Int.log 10 q := by
    rw [← Int.zpow_le_iff_le_log hb hq]
    push_cast
    rw [zpow_neg_one, ← one_div]
    exact le_of_lt h1
  have he : Int.log 10 q = -1 := by omega
  refine ⟨he, ?_⟩
  unfold truncLog10
  rw [if_neg (not_lt.2 (le_of_lt hq)), if_neg (ne_of_gt hq), he]
  have hne : q ≠ (10 : ℚ)⁻¹ := by
    rw [← one_div]
    exact ne_of_gt h1
  simp [zpow_neg_one, hne]

/-- C8: for every magnitude `m` with non-negative sign bit,
`LogHistogram::add(m)` increments exactly one of `num_nan` (if `m` is NaN),
`num_inf` (if `m` is infinite), `num_zero` (if `m == 0.0`), or the bucket
keyed by `log10(m)` truncated toward zero — and on `(0.1, 1)` the truncated
exponent is `0` while the floor would be `-1`, so such magnitudes are
bucketed at exponent 0. -/
theorem thm_C8_histo_add :
    (∀ (h : LogHistogram) (m : F64), m.is_sign_positive = true →
      (m.is_nan = true → h.add m = some { h with num_nan := h.num_nan + 1 }) ∧
      (m.is_nan = false → m.is_infinite = true →
        h.add m = some { h with num_inf := h.num_inf + 1 }) ∧
      (m.is_nan = false → m.is_infinite = false → F64.eq m fZero = true →
        h.add m = some { h with num_zero := h.num_zero + 1 }) ∧
      (m.is_nan = false → m.is_infinite = false → F64.eq m fZero = false →
        h.add m = some ⟨h.num_nan, h.num_inf, h.num_zero, h.max_display_buckets,
          Function.update h.log10_buckets (truncLog10F m)
            (h.log10_buckets (truncLog10F m) + 1)⟩)) ∧
    (∀ q : ℚ, 1/10 < q → q < 1 → Int.log 10 q = -1 ∧ truncLog10 q = 0) := by
  constructor
  · intro h m hsign
    refine ⟨?_, ?_, ?_, ?_⟩
    · intro hn
      simp [LogHistogram.add, hsign, hn]
    · intro hn hi
      simp [LogHistogram.add, hsign, hn, hi]
    · intro hn hi hz
      simp [LogHistogram.add, hsign, hn, hi, hz]
    · intro hn hi hz
      simp [LogHistogram.add, hsign, hn, hi, hz]
  · exact truncLog10_between

unseal Rat.add Rat.sub Rat.mul Rat.inv in
/-- Witness for C8 at `m = 0.5` on an empty histogram: the magnitude lands
in exponent bucket 0 (not -1). -/
theorem wit_C8_histo_add :
    (F64.fin false (1/2)).is_sign_positive = true ∧
    (F64.fin false (1/2)).is_nan = false ∧
    (F64.fin false (1/2)).is_infinite = false ∧
    F64.eq (F64.fin false (1/2)) fZero = false ∧
    (LogHistogram.mk 0 0 0 4 (fun _ => 0)).add (F64.fin false (1/2))
      = some ⟨(LogHistogram.mk 0 0 0 4 (fun _ => 0)).num_nan,
          (LogHistogram.mk 0 0 0 4 (fun _ => 0)).num_inf,
          (LogHistogram.mk 0 0 0 4 (fun _ => 0)).num_zero,
          (LogHistogram.mk 0 0 0 4 (fun _ => 0)).max_display_buckets,
          Function.update (LogHistogram.mk 0 0 0 4 (fun _ => 0)).log10_buckets
            (truncLog10F (F64.fin false (1/2)))
            ((LogHistogram.mk 0 0 0 4 (fun _ => 0)).log10_buckets
              (truncLog10F (F64.fin false (1/2))) + 1)⟩ ∧
    ((1:ℚ)/10 < 1/2 ∧ (1/2 : ℚ) < 1 ∧ truncLog10 ((1:ℚ)/2) = 0) := by
  refine ⟨by decide, by decide, by decide, by decide,
    (thm_C8_histo_add.1 (LogHistogram.mk 0 0 0 4 (fun _ => 0)) (F64.fin false (1/2))
      (by decide)).2.2.2 (by decide) (by decide) (by decide),
    by decide, by decide,
    (thm_C8_histo_add.2 (1/2) (by decide) (by decide)).2⟩

/-! ## Claim C7 -/

theorem roundCast_mono {a b : ℚ} (h : a ≤ b) : roundCast a ≤ roundCast b :=
  Int.toNat_le_toNat (Int.floor_le_floor (by linarith))

theorem roundCast_eq_zero {q : ℚ} (h : q < 1/2) : roundCast q = 0 := by
  unfold roundCast
  rw [Int.toNat_eq_zero]
  have : ⌊q + 1/2⌋ < 1 := by
    rw [Int.floor_lt]
    push_cast
    linarith
  omega

theorem one_le_roundCast {q : ℚ} (h : 1 ≤ q) : 1 ≤ roundCast q := by
  unfold roundCast
  have h1 : (1 : ℤ) ≤ ⌊q + 1/2⌋ := by
    rw [Int.le_floor]
    push_cast
    linarith
  omega

theorem roundCast_le_nat {q : ℚ} {n : ℕ} (h : q ≤ n) : roundCast q ≤ n := by
  unfold roundCast
  rw [Int.toNat_le]
  have : ⌊q + 1/2⌋ < (n : ℤ) + 1 := by
    rw [Int.floor_lt]
    push_cast
    linarith
  omega

theorem nat_le_roundCast {q : ℚ} {n : ℕ} (h : (n : ℚ) ≤ q) : n ≤ roundCast q := by
  unfold roundCast
  have h1 : (n : ℤ) ≤ ⌊q + 1/2⌋ := by
    rw [Int.le_floor]
    push_cast
    linarith
  omega

theorem roundCast_natCast (n : ℕ) : roundCast (n : ℚ) = n :=
  Nat.le_antisymm (roundCast_le_nat le_rfl) (nat_le_roundCast le_rfl)

/-- With a positive total, `to_percent part total` is at least 1 whenever
`part` is nonzero. -/
theorem one_le_to_percent {part total : ℕ} (hp : part ≠ 0) :
    1 ≤ to_percent part total := by
  unfold to_percent
  dsimp only
  split
  · exact le_rfl
  · next hc1 =>
    split
    · norm_num
    · have hP : (1 : ℚ) ≤ 100 * (part : ℚ) / (total : ℚ) := by
        by_contra hlt
        exact hc1 ⟨lt_of_not_le hlt, hp⟩
      exact one_le_roundCast hP

theorem to_percent_eq_spec (part total : ℕ) (ht : 0 < total) (hpt : part ≤ total) :
    to_percent part total = to_percent_spec part total := by
  have htq : (0 : ℚ) < (total : ℚ) := by exact_mod_cast ht
  set P : ℚ := 100 * (part : ℚ) / (total : ℚ) with hPdef
  have hP0 : 0 ≤ P := by positivity
  by_cases hp0 : part = 0
  · subst hp0
    have hP : P = 0 := by
      rw [hPdef]
      simp
    unfold to_percent to_percent_spec
    rw [← hPdef, hP]
    norm_num [roundCast_eq_zero]
  · by_cases h1 : P < 1
    · have hr1 : roundCast P ≤ 1 := by
        have : P ≤ ((1 : ℕ) : ℚ) := by push_cast; linarith
        exact roundCast_le_nat this
      unfold to_percent to_percent_spec
      rw [← hPdef]
      rw [if_pos ⟨h1, hp0⟩]
      rcases Nat.lt_or_ge (roundCast P) 1 with hc | hc
      · rw [if_pos ⟨hp0, by omega⟩]
      · have hr : roundCast P = 1 := by omega
        rw [if_neg (by omega), if_neg (by rw [hr]; omega)]
        omega
    · have h1' : 1 ≤ P := le_of_not_lt h1
      have hr1 : 1 ≤ roundCast P := one_le_roundCast h1'
      by_cases hpt2 : part = total
      · subst hpt2
        have hP : P = 100 := by
          rw [hPdef]
          field_simp
        have h100 : ((100 : ℕ) : ℚ) = (100 : ℚ) := by norm_num
        unfold to_percent to_percent_spec
        rw [← hPdef, hP]
        rw [if_neg (by norm_num), if_neg (by simp), ← h100, roundCast_natCast]
        rw [if_neg (by omega), if_neg (by simp)]
      · have hlt100 : P < 100 := by
          rw [hPdef, div_lt_iff₀ htq]
          have : (part : ℚ) < (total : ℚ) := by
            exact_mod_cast lt_of_le_of_ne hpt hpt2
          linarith
        by_cases h99 : 99 < P
        · have hub : roundCast P ≤ 100 := roundCast_le_nat (by push_cast; linarith)
          have hlb : 99 ≤ roundCast P := nat_le_roundCast (by push_cast; linarith)
          unfold to_percent to_percent_spec
          rw [← hPdef]
          rw [if_neg (by rw [not_and_or]; left; linarith), if_pos ⟨h99, hpt2⟩]
          rcases Nat.lt_or_ge (roundCast P) 100 with hc | hc
          · rw [if_neg (by omega), if_neg (by omega)]
            omega
          · rw [if_neg (by omega), if_pos ⟨hpt2, by omega⟩]
        · have h99' : P ≤ 99 := le_of_not_lt h99
          have hub : roundCast P ≤ 99 := roundCast_le_nat (by push_cast; linarith)
          unfold to_percent to_percent_spec
          rw [← hPdef]
          rw [if_neg (by rw [not_and_or]; left; linarith),
              if_neg (by rw [not_and_or]; left; exact h99)]
          rw [if_neg (by omega), if_neg (by omega)]

theorem to_percent_mono (total p1 p2 : ℕ) (ht : 0 < total) (h12 : p1 ≤ p2)
    (h2t : p2 ≤ total) : to_percent p1 total ≤ to_percent p2 total := by
  have htq : (0 : ℚ) < (total : ℚ) := by exact_mod_cast ht
  set P1 : ℚ := 100 * (p1 : ℚ) / (total : ℚ) with hP1
  set P2 : ℚ := 100 * (p2 : ℚ) / (total : ℚ) with hP2
  have hPle : P1 ≤ P2 := by
    rw [hP1, hP2]
    have hc : (p1 : ℚ) ≤ (p2 : ℚ) := by exact_mod_cast h12
    apply div_le_div_of_nonneg_right ?_ htq.le
    linarith
  by_cases hp1 : p1 = 0
  · subst hp1
    have h0 : to_percent 0 total = 0 := by
      unfold to_percent
      norm_num
      exact roundCast_eq_zero (by norm_num)
    rw [h0]
    exact Nat.zero_le _
  · have hp2 : p2 ≠ 0 := by omega
    by_cases hc1 : P1 < 1
    · have h1 : to_percent p1 total = 1 := by
        unfold to_percent
        rw [← hP1, if_pos ⟨hc1, hp1⟩]
      rw [h1]
      exact one_le_to_percent hp2
    · have h1' : 1 ≤ P1 := le_of_not_lt hc1
      by_cases hc2 : 99 < P1 ∧ p1 ≠ total
      · have h1v : to_percent p1 total = 99 := by
          unfold to_percent
          rw [← hP1, if_neg (by rw [not_and_or]; left; linarith), if_pos hc2]
        rw [h1v]
        have h99_2 : 99 < P2 := lt_of_lt_of_le hc2.1 hPle
        by_cases hpt2 : p2 = total
        · subst hpt2
          have hP2v : P2 = 100 := by
            rw [hP2]
            field_simp
          have h100 : ((100 : ℕ) : ℚ) = (100 : ℚ) := by norm_num
          unfold to_percent
          rw [← hP2, hP2v, if_neg (by norm_num), if_neg (by simp), ← h100,
              roundCast_natCast]
          omega
        · have h2v : to_percent p2 total = 99 := by
            unfold to_percent
            rw [← hP2, if_neg (by rw [not_and_or]; left; linarith),
                if_pos ⟨h99_2, hpt2⟩]
          rw [h2v]
      · have h1v : to_percent p1 total = roundCast P1 := by
          unfold to_percent
          rw [← hP1, if_neg (by rw [not_and_or]; left; linarith), if_neg hc2]
        rw [h1v]
        have hP2ge1 : ¬(P2 < 1) := by
          push_neg
          linarith
        by_cases hc2' : 99 < P2 ∧ p2 ≠ total
        · have h2v : to_percent p2 total = 99 := by
            unfold to_percent
            rw [← hP2, if_neg (by rw [not_and_or]; left; exact hP2ge1), if_pos hc2']
          rw [h2v]
          rcases not_and_or.1 hc2 with h | h
          · have h99 : P1 ≤ ((99 : ℕ) : ℚ) := by
              push_cast
              linarith [le_of_not_lt h]
            exact roundCast_le_nat h99
          · exfalso
            rw [not_not] at h
            exact hc2'.2 (by omega)
        · have h2v : to_percent p2 total = roundCast P2 := by
            unfold to_percent
            rw [← hP2, if_neg (by rw [not_and_or]; left; exact hP2ge1), if_neg hc2']
          rw [h2v]
          exact roundCast_mono hPle

/-- C7: for every `total > 0` and `part ≤ total`, `to_percent(part, total)`
equals `100 * part / total` rounded to the nearest integer (half away from
zero), except that it returns 1 instead of 0 whenever `part > 0` would round
to 0, and 99 instead of 100 whenever `part ≠ total` would round to 100
(`to_percent_spec` is that rounding, modelled from the spec text); it never
returns 0 for `part > 0`, never returns 100 for `part ≠ total`, and is
monotonic in `part` for fixed `total`. -/
theorem thm_C7_to_percent :
    (∀ part total : ℕ, 0 < total → part ≤ total →
       to_percent part total = to_percent_spec part total) ∧
    (∀ part total : ℕ, 0 < total → part ≤ total → part ≠ 0 →
       to_percent part total ≠ 0) ∧
    (∀ part total : ℕ, 0 < total → part ≤ total → part ≠ total →
       to_percent part total ≠ 100) ∧
    (∀ total p1 p2 : ℕ, 0 < total → p1 ≤ p2 → p2 ≤ total →
       to_percent p1 total ≤ to_percent p2 total) := by
  refine ⟨to_percent_eq_spec, ?_, ?_, to_percent_mono⟩
  · intro part total ht hpt hne
    have := @one_le_to_percent part total hne
    omega
  · intro part total ht hpt hne
    unfold to_percent
    dsimp only
    split
    · omega
    · split
      · omega
      · next hc1 hc2 =>
        rcases not_and_or.1 hc2 with h | h
        · have h99 : 100 * (part : ℚ) / (total : ℚ) ≤ ((99 : ℕ) : ℚ) := by
            push_cast
            linarith [le_of_not_lt h]
          have := roundCast_le_nat h99
          omega
        · exact absurd (not_not.1 h) hne

unseal Rat.add Rat.sub Rat.mul Rat.inv in
/-- Witness for C7 at concrete values: `to_percent 1 200` (true ratio 0.5%)
agrees with the spec rounding, is nonzero, `to_percent 199 200` is not 100,
and monotonicity at `1 ≤ 3`. -/
theorem wit_C7_to_percent :
    ((0 : ℕ) < 200 ∧ (1 : ℕ) ≤ 200 ∧ to_percent 1 200 = to_percent_spec 1 200) ∧
    to_percent 1 200 ≠ 0 ∧
    to_percent 199 200 ≠ 100 ∧
    to_percent 1 200 ≤ to_percent 3 200 :=
  ⟨⟨by decide, by decide, thm_C7_to_percent.1 1 200 (by decide) (by decide)⟩,
   thm_C7_to_percent.2.1 1 200 (by decide) (by decide) (by decide),
   thm_C7_to_percent.2.2.1 199 200 (by decide) (by decide) (by decide),
   thm_C7_to_percent.2.2.2 200 1 3 (by decide) (by decide) (by decide)⟩

/-! ## Claim C3 -/

theorem qF_two : qF 2 = F64.fin false 2 := by norm_num [qF, F64.mkFin]

theorem F64.add_fin_nonneg {m k : ℚ} (hm : 0 ≤ m) (hk : 0 ≤ k) :
    F64.add (F64.fin false m) (F64.fin false k) = F64.fin false (m + k) := by
  unfold F64.add
  dsimp only
  simp only [Bool.false_eq_true, if_false, Bool.and_self]
  by_cases h : m + k = 0
  · simp [h]
  · rw [if_neg h]
    exact F64.mkFin_of_nonneg (by linarith)

unseal Rat.add Rat.sub Rat.mul Rat.inv in
/-- Counterexample to C3 as stated: at `(+Inf, NaN)` both the lesser-of and
the absolute magnitude are NaN, so the IEEE `≤` between them is false; and
at `(0, 0.5)` we have `|x| + |y| ≤ 2` yet the relative magnitude `2.0`
differs from the absolute magnitude `0.5`. -/
theorem cex_C3_lesser_rel :
    F64.le (calc_diff_lesser (F64.inf false) (F64.nan false)).1
        (calc_diff_abs (F64.inf false) (F64.nan false)).1 = false ∧
    F64.le (F64.add (qF 0).abs (qF (1/2)).abs) (qF 2) = true ∧
    (calc_diff_rel (qF 0) (qF (1/2))).1 ≠ (calc_diff_abs (qF 0) (qF (1/2))).1 :=
  ⟨by decide, by decide, by decide⟩

/-- C3 (amended): for all well-formed `x`, `y`, the lesser-of magnitude is
either literally equal to the absolute magnitude (in particular whenever the
latter is NaN — both are then the same NaN) or IEEE-`≤` it; and whenever
`|x| + |y| ≤ 2` holds as an f64 comparison, the lesser-of magnitude equals
the absolute magnitude, because lesser-of does not apply relative scaling at
or below that threshold.  (The original claim also asserted this equality for
the relative metric, which scales whenever the difference is nonzero —
refuted by `cex_C3_lesser_rel` — and asserted the plain `≤` which fails on
NaN magnitudes.) -/
theorem thm_C3_lesser_le_abs :
    ∀ x y : F64, x.Wf → y.Wf →
      ((calc_diff_lesser x y).1 = (calc_diff_abs x y).1 ∨
        F64.le (calc_diff_lesser x y).1 (calc_diff_abs x y).1 = true) ∧
      (F64.le (F64.add x.abs y.abs) (qF 2) = true →
        (calc_diff_lesser x y).1 = (calc_diff_abs x y).1) := by
  intro x y hx hy
  unfold calc_diff_lesser
  dsimp only
  by_cases hc : (!(F64.eq (calc_diff_abs x y).1 fZero)
      && !(calc_diff_abs x y).1.is_infinite) = true
  · rw [if_pos hc]
    by_cases hs : F64.lt (qF 2) (F64.add x.abs y.abs) = true
    · rw [if_pos hs]
      -- The scaled branch: the magnitude is finite nonzero and the sum of
      -- absolute values compares above 2, so scaling shrinks it.
      constructor
      · right
        cases x with
        | nan s =>
          -- x NaN makes the sum NaN, contradicting the comparison `2 < sum`.
          exfalso
          revert hs
          cases y <;> simp [F64.abs, F64.add, F64.lt, qF_two]
        | inf s =>
          cases y with
          | nan t =>
            exfalso
            revert hs
            simp [F64.abs, F64.add, F64.lt, qF_two]
          | inf t =>
            -- Magnitude 0 or Inf: both excluded by `hc`.
            exfalso
            revert hc
            by_cases hst : s = t <;>
              simp [calc_diff_abs, F64.is_nan, F64.is_infinite, F64.is_sign_negative,
                hst, F64.eq, fZero]
          | fin t k =>
            exfalso
            revert hc
            simp [calc_diff_abs, F64.is_nan, F64.is_infinite, F64.sub, F64.abs]
        | fin s m =>
          cases y with
          | nan t =>
            exfalso
            revert hs
            simp [F64.abs, F64.add, F64.lt, qF_two]
          | inf t =>
            exfalso
            revert hc
            simp [calc_diff_abs, F64.is_nan, F64.is_infinite, F64.sub, F64.abs]
          | fin t k =>
            have hm : (0 : ℚ) ≤ m := hx
            have hk : (0 : ℚ) ≤ k := hy
            have hsum : F64.add (F64.fin s m).abs (F64.fin t k).abs
                = F64.fin false (m + k) := by
              simp only [F64.abs]
              exact F64.add_fin_nonneg hm hk
            rw [hsum] at hs ⊢
            have h2mk : (2 : ℚ) < m + k := by
              revert hs
              simp [F64.lt, qF_two]
            have habs := F64.abs_sub_fin s t m k
            have hmag : (calc_diff_abs (F64.fin s m) (F64.fin t k)).1
                = F64.fin false |(if s then -m else m) - (if t then -k else k)| := by
              simp [calc_diff_abs, F64.is_nan, F64.is_infinite, habs,
                F64.mkFin_of_nonneg (abs_nonneg _)]
            rw [hmag]
            have hdvpos : (0 : ℚ) < m + k := by linarith
            simp only [F64.div, F64.mul, qF_two]
            rw [if_neg (by linarith : ¬(m + k = 0))]
            simp only [F64.mul, F64.le, bne_self_eq_false]
            rw [decide_eq_true_iff]
            have hfac : 2 / (m + k) ≤ 1 := by
              rw [div_le_one hdvpos]
              linarith
            have habs0 : (0 : ℚ) ≤ |(if s then -m else m) - (if t then -k else k)| :=
              abs_nonneg _
            calc |(if s then -m else m) - (if t then -k else k)| * (2 / (m + k))
                ≤ |(if s then -m else m) - (if t then -k else k)| * 1 := by
                  exact mul_le_mul_of_nonneg_left hfac habs0
              _ = |(if s then -m else m) - (if t then -k else k)| := mul_one _
      · -- `|x|+|y| ≤ 2` cannot hold together with `2 < |x|+|y|`.
        intro hle
        exfalso
        revert hs hle
        cases F64.add x.abs y.abs <;> simp [F64.lt, F64.le, qF_two]
    · rw [if_neg hs]
      exact ⟨Or.inl rfl, fun _ => rfl⟩
  · rw [if_neg hc]
    exact ⟨Or.inl rfl, fun _ => rfl⟩

unseal Rat.add Rat.sub Rat.mul Rat.inv in
/-- Witness for C3 (amended) at `(10, 10.5)`: the lesser-of magnitude is
scaled and `≤` the absolute one, and at `(0.25, 0.25)` (sum 0.5 ≤ 2) the
two magnitudes coincide. -/
theorem wit_C3_lesser_le_abs :
    (qF 10).Wf ∧ (qF (21/2)).Wf ∧
    ((calc_diff_lesser (qF 10) (qF (21/2))).1 = (calc_diff_abs (qF 10) (qF (21/2))).1 ∨
      F64.le (calc_diff_lesser (qF 10) (qF (21/2))).1
        (calc_diff_abs (qF 10) (qF (21/2))).1 = true) ∧
    (F64.le (F64.add (qF (1/4)).abs (qF (1/4)).abs) (qF 2) = true ∧
      (calc_diff_lesser (qF (1/4)) (qF (1/4))).1 = (calc_diff_abs (qF (1/4)) (qF (1/4))).1) :=
  ⟨by decide, by decide,
   (thm_C3_lesser_le_abs (qF 10) (qF (21/2)) (by decide) (by decide)).1,
   by decide,
   (thm_C3_lesser_le_abs (qF (1/4)) (qF (1/4)) (by decide) (by decide)).2 (by decide)⟩

/-! ## Claim C2 -/

theorem F64.sign_pos_abs (z : F64) : z.abs.is_sign_positive = true := by
  cases z <;> rfl

theorem F64.mul_nan_left (s : Bool) (z : F64) : (F64.nan s).mul z = F64.nan s := by
  cases z <;> rfl

theorem F64.div_nan_right (x : F64) (s : Bool) (hx : x.is_nan = false) :
    x.div (F64.nan s) = F64.nan s := by
  cases x with
  | nan t => simp [F64.is_nan] at hx
  | inf t => rfl
  | fin t m => rfl

theorem F64.mul_nan_right (x : F64) (s : Bool) (hx : x.is_nan = false) :
    x.mul (F64.nan s) = F64.nan s := by
  cases x with
  | nan t => simp [F64.is_nan] at hx
  | inf t => rfl
  | fin t m => rfl

theorem F64.wf_mkFin (q : ℚ) : (F64.mkFin q).Wf := by
  unfold F64.mkFin
  by_cases h : q < 0
  · simp only [if_pos h]
    show 0 ≤ -q
    linarith
  · simp only [if_neg h]
    show 0 ≤ q
    linarith [not_lt.1 h]

theorem F64.wf_sub (x y : F64) : (F64.sub x y).Wf := by
  cases x with
  | nan s => cases y <;> trivial
  | inf s =>
    cases y with
    | nan t => trivial
    | inf t =>
      simp only [F64.sub]
      split <;> trivial
    | fin t k => trivial
  | fin s m =>
    cases y with
    | nan t => trivial
    | inf t => trivial
    | fin t k =>
      simp only [F64.sub]
      by_cases h : ((if s then -m else m) - if t then -k else k) = 0
      · rw [if_pos h]
        show (0 : ℚ) ≤ 0
        exact le_refl 0
      · rw [if_neg h]
        exact F64.wf_mkFin _

theorem F64.wf_abs {z : F64} (hz : z.Wf) : z.abs.Wf := by
  cases z <;> exact hz

/-- A sign-positive well-formed value is positive NaN, positive infinity, or
a finite value with non-negative magnitude and clear sign bit. -/
theorem F64.shape_of_pos {z : F64} (hp : z.is_sign_positive = true) (hw : z.Wf) :
    z = F64.nan false ∨ z = F64.inf false ∨ ∃ m : ℚ, 0 ≤ m ∧ z = F64.fin false m := by
  cases z with
  | nan s =>
    left
    simp [F64.is_sign_positive, F64.is_sign_negative] at hp
    rw [hp]
  | inf s =>
    right; left
    simp [F64.is_sign_positive, F64.is_sign_negative] at hp
    rw [hp]
  | fin s m =>
    right; right
    refine ⟨m, hw, ?_⟩
    simp [F64.is_sign_positive, F64.is_sign_negative] at hp
    rw [hp]

theorem abs_mag_sign_pos (x y : F64) : (calc_diff_abs x y).1.is_sign_positive = true := by
  unfold calc_diff_abs
  dsimp only
  split
  · rfl
  · split
    · split <;> rfl
    · exact F64.sign_pos_abs _

theorem abs_mag_wf (x y : F64) : (calc_diff_abs x y).1.Wf := by
  unfold calc_diff_abs
  dsimp only
  split
  · trivial
  · split
    · split <;> trivial
    · exact F64.wf_abs (F64.wf_sub x y)

/-- The sum `|x| + |y|` of two well-formed values is positive NaN, positive
infinity, or a non-negative finite value. -/
theorem sumAbs_shape (x y : F64) (hx : x.Wf) (hy : y.Wf) :
    F64.add x.abs y.abs = F64.nan false ∨ F64.add x.abs y.abs = F64.inf false ∨
    ∃ c : ℚ, 0 ≤ c ∧ F64.add x.abs y.abs = F64.fin false c := by
  cases x with
  | nan s => left; cases y <;> rfl
  | inf s =>
    cases y with
    | nan t => left; rfl
    | inf t => right; left; rfl
    | fin t k => right; left; rfl
  | fin s m =>
    cases y with
    | nan t => left; rfl
    | inf t => right; left; rfl
    | fin t k =>
      right; right
      have hm : (0 : ℚ) ≤ m := hx
      have hk : (0 : ℚ) ≤ k := hy
      exact ⟨m + k, by linarith, by simpa [F64.abs] using F64.add_fin_nonneg hm hk⟩

theorem rel_mag_sign_pos (x y : F64) (hx : x.Wf) (hy : y.Wf)
    (hni : (calc_diff_abs x y).1.is_infinite = false) :
    (calc_diff_rel x y).1.is_sign_positive = true := by
  unfold calc_diff_rel
  dsimp only
  split
  · next hc =>
    rw [qF_two]
    rcases F64.shape_of_pos (abs_mag_sign_pos x y) (abs_mag_wf x y) with h1 | h1 | ⟨m, hm, h1⟩
    · rw [h1, F64.mul_nan_left]
      rfl
    · rw [h1] at hni
      simp [F64.is_infinite] at hni
    · rw [h1]
      rw [h1] at hc
      have hm0 : m ≠ 0 := by
        by_contra hz
        subst hz
        simp [F64.eq, fZero] at hc
      rcases sumAbs_shape x y hx hy with h2 | h2 | ⟨c, hcge, h2⟩ <;> rw [h2]
      · rw [F64.div_nan_right _ _ (by rfl), F64.mul_nan_right _ _ (by rfl)]
        rfl
      · rfl
      · by_cases hc0 : c = 0
        · subst hc0
          simp [F64.div, F64.mul, hm0, F64.is_sign_positive, F64.is_sign_negative]
        · simp [F64.div, F64.mul, hc0, F64.is_sign_positive, F64.is_sign_negative]
  · exact abs_mag_sign_pos x y

theorem lesser_mag_sign_pos (x y : F64) (hx : x.Wf) (hy : y.Wf) :
    (calc_diff_lesser x y).1.is_sign_positive = true := by
  unfold calc_diff_lesser
  dsimp only
  split
  · next hc =>
    split
    · next hs =>
      rw [qF_two] at hs ⊢
      rcases F64.shape_of_pos (abs_mag_sign_pos x y) (abs_mag_wf x y) with h1 | h1 | ⟨m, hm, h1⟩
      · rw [h1, F64.mul_nan_left]
        rfl
      · rw [h1] at hc
        simp [F64.eq, F64.is_infinite, fZero] at hc
      · rw [h1]
        rcases sumAbs_shape x y hx hy with h2 | h2 | ⟨c, hcge, h2⟩ <;> rw [h2] at hs ⊢
        · simp [F64.lt] at hs
        · rfl
        · have hc2 : (2 : ℚ) < c := by
            revert hs
            simp [F64.lt]
          simp only [F64.div, if_neg (show ¬(c = 0) by linarith), F64.mul]
          rfl
    · exact abs_mag_sign_pos x y
  · exact abs_mag_sign_pos x y

theorem ulps_mag_sign_pos (uf : F64 → F64 → ℤ) (x y : F64) :
    (diff_ulps uf x y).1.is_sign_positive = true := by
  unfold diff_ulps
  dsimp only
  split
  · rfl
  · split
    · rfl
    · split
      · rfl
      · exact F64.sign_pos_abs _

theorem cyclic_candidates_pos (d1m d2m : F64) (b : Bool) (r : F64 × Bool)
    (h1 : d1m.is_sign_positive = true) (h2 : d2m.is_sign_positive = true)
    (h : (if F64.lt d2m d1m = true then some (d2m, true) else some (d1m, b)) = some r) :
    r.1.is_sign_positive = true := by
  split at h <;> simp only [Option.some.injEq] at h <;> rw [← h]
  · exact h2
  · exact h1

theorem cyclic_mag_sign_pos (x y rmin rmax : F64) (r : F64 × Bool)
    (h : diff_cyclic x y rmin rmax = some r) : r.1.is_sign_positive = true := by
  unfold diff_cyclic at h
  split at h
  · exact absurd h (by simp)
  split at h
  · exact absurd h (by simp)
  dsimp only at h
  refine cyclic_candidates_pos _ _ _ r ?_ ?_ h
  · split
    · rfl
    · exact abs_mag_sign_pos _ _
  · split
    · exact abs_mag_sign_pos _ _
    · split
      · exact abs_mag_sign_pos _ _
      · split
        · rfl
        · exact abs_mag_sign_pos _ _

theorem LogHistogram.add_isSome (h : LogHistogram) {d : F64}
    (hd : d.is_sign_positive = true) : (h.add d).isSome = true := by
  unfold LogHistogram.add
  rw [hd]
  simp only [Bool.not_true, Bool.false_eq_true, if_false]
  split
  · rfl
  · split
    · rfl
    · split
      · rfl
      · rfl

theorem is_diff_worse_eq (a b : F64) (ha : a.is_sign_positive = true)
    (hb : b.is_sign_positive = true) :
    is_diff_worse a b = some ((a.is_nan && !b.is_nan) || F64.lt b a) := by
  unfold is_diff_worse
  rw [ha, hb]
  rfl

/-- A successful `add` with a sign-positive metric output exists and keeps
the worst-diff field sign-positive. -/
theorem DiffSummary.add_isSome_pos (calcF : F64 → F64 → F64 × Bool) (s : DiffSummary)
    (x y : F64) (i : ℕ) (hs : s.diff.is_sign_positive = true)
    (hxy : (calcF x y).1.is_sign_positive = true) :
    ∃ s1, DiffSummary.add calcF s x y i = some s1 ∧ s1.diff.is_sign_positive = true := by
  unfold DiffSummary.add
  dsimp only
  rw [is_diff_worse_eq _ _ hxy hs]
  cases hh : s.histo.add (calcF x y).1 with
  | none =>
    have hsome := LogHistogram.add_isSome s.histo hxy
    rw [hh] at hsome
    simp at hsome
  | some h2 =>
    refine ⟨_, rfl, ?_⟩
    dsimp only
    split
    · exact hxy
    · exact hs

theorem runAdds_isSome (calcF : F64 → F64 → F64 × Bool)
    (hpos : ∀ a b : F64, a.Wf → b.Wf → (calcF a b).1.is_sign_positive = true) :
    ∀ (inputs : List (F64 × F64 × ℕ)) (s : DiffSummary),
      s.diff.is_sign_positive = true →
      (∀ p ∈ inputs, p.1.Wf ∧ p.2.1.Wf) →
      (runAdds calcF s inputs).isSome = true := by
  intro inputs
  induction inputs with
  | nil =>
    intro s _ _
    rfl
  | cons p rest ih =>
    intro s hs hw
    obtain ⟨x, y, i⟩ := p
    obtain ⟨s1, hadd, hpos1⟩ := DiffSummary.add_isSome_pos calcF s x y i hs
      (hpos x y (hw (x, y, i) (by simp)).1 (hw (x, y, i) (by simp)).2)
    simp only [runAdds]
    rw [hadd]
    exact ih s1 hpos1 (fun q hq => hw q (List.mem_cons_of_mem _ hq))

unseal Rat.add Rat.sub Rat.mul Rat.inv in
/-- Counterexample to C2 as stated: at the pair `(+Inf, -Inf)` the relative
metric computes `INFINITY * (2.0 / INFINITY) = Inf × 0`, an invalid
operation whose default quiet NaN has the sign bit set on x86-64 — so the
returned magnitude is not sign-positive, and a relative-metric summary fed
that pair panics (modelled by `none`) in the `is_diff_worse` /
`LogHistogram::add` assertions. -/
theorem cex_C2_rel_negative_nan :
    (calc_diff_rel (F64.inf false) (F64.inf true)).1.is_sign_positive = false ∧
    ((DiffSummary.new (qF 1) true 3).bind (fun s0 =>
        runAdds calc_diff_rel s0 [(F64.inf false, F64.inf true, 0)])).isNone = true :=
  ⟨by decide, by decide⟩

/-- C2 (amended): for every pair of well-formed (f64-denoting) inputs, the
absolute, lesser-of, ULP (for every bit-distance function) and cyclic (for
every accepted range) metrics return a magnitude with non-negative sign bit;
the relative metric does too, except when the absolute difference of the
pair is infinite (an infinite input against a finite one, or opposite-sign
infinities), where it computes `Inf × 0` and returns the x86-64 default
quiet NaN with negative sign bit (see `cex_C2_rel_negative_nan`).
Consequently, for any metric whose outputs on well-formed inputs are all
sign-positive, the sign-positivity assertions in `is_diff_worse` and
`LogHistogram::add` never fail along any `DiffSummary::add` stream. -/
theorem thm_C2_sign_positive :
    (∀ x y : F64, x.Wf → y.Wf →
       (calc_diff_abs x y).1.is_sign_positive = true ∧
       (calc_diff_lesser x y).1.is_sign_positive = true ∧
       (∀ uf : F64 → F64 → ℤ, (diff_ulps uf x y).1.is_sign_positive = true) ∧
       (∀ rmin rmax : F64, ∀ r : F64 × Bool, diff_cyclic x y rmin rmax = some r →
          r.1.is_sign_positive = true) ∧
       ((calc_diff_abs x y).1.is_infinite = false →
          (calc_diff_rel x y).1.is_sign_positive = true)) ∧
    (∀ calcF : F64 → F64 → F64 × Bool,
       (∀ a b : F64, a.Wf → b.Wf → (calcF a b).1.is_sign_positive = true) →
       ∀ (ad : F64) (asgn : Bool) (n : ℕ) (s0 : DiffSummary)
         (inputs : List (F64 × F64 × ℕ)),
         DiffSummary.new ad asgn n = some s0 →
         (∀ p ∈ inputs, p.1.Wf ∧ p.2.1.Wf) →
         (runAdds calcF s0 inputs).isSome = true) := by
  constructor
  · intro x y hx hy
    exact ⟨abs_mag_sign_pos x y, lesser_mag_sign_pos x y hx hy,
      fun uf => ulps_mag_sign_pos uf x y,
      fun rmin rmax r hr => cyclic_mag_sign_pos x y rmin rmax r hr,
      fun hni => rel_mag_sign_pos x y hx hy hni⟩
  · intro calcF hpos ad asgn n s0 inputs hnew hw
    have hs0 : s0.diff.is_sign_positive = true := by
      unfold DiffSummary.new LogHistogram.new at hnew
      split at hnew
      · simp only [Option.map_some', Option.some.injEq] at hnew
        rw [← hnew]
        rfl
      · exact absurd hnew (by simp)
    exact runAdds_isSome calcF hpos inputs s0 hs0 hw

unseal Rat.add Rat.sub Rat.mul Rat.inv in
/-- Witness for C2 (amended) at the pair `(1, 2)` (all metric clauses, with
the cyclic range `[-180, 180]`), and a two-element absolute-metric stream
that completes without panicking. -/
theorem wit_C2_sign_positive :
    ((qF 1).Wf ∧ (qF 2).Wf) ∧
    (calc_diff_abs (qF 1) (qF 2)).1.is_sign_positive = true ∧
    (calc_diff_lesser (qF 1) (qF 2)).1.is_sign_positive = true ∧
    (diff_ulps (fun _ _ => 1) (qF 1) (qF 2)).1.is_sign_positive = true ∧
    (diff_cyclic (qF 1) (qF 2) (qF (-180)) (qF 180) = some (qF 1, false) ∧
      (qF 1, false).1.is_sign_positive = true) ∧
    ((calc_diff_abs (qF 1) (qF 2)).1.is_infinite = false ∧
      (calc_diff_rel (qF 1) (qF 2)).1.is_sign_positive = true) ∧
    (DiffSummary.new (qF 1) true 3
        = some (DiffSummary.mk (F64.fin false 0) (qF 1) true 0 0 DiffPartSummary.new
                DiffPartSummary.new ⟨0, 0, 0, 3, fun _ => 0⟩) ∧
      (runAdds calc_diff_abs
        (DiffSummary.mk (F64.fin false 0) (qF 1) true 0 0 DiffPartSummary.new
          DiffPartSummary.new ⟨0, 0, 0, 3, fun _ => 0⟩)
        [(qF 1, qF 3, 0), (F64.nan false, qF 2, 1)]).isSome = true) := by
  have h1 := thm_C2_sign_positive.1 (qF 1) (qF 2) (by decide) (by decide)
  refine ⟨⟨by decide, by decide⟩, h1.1, h1.2.1, h1.2.2.1 _, ⟨by decide, ?_⟩,
    ⟨by decide, h1.2.2.2.2 (by decide)⟩, ⟨rfl, ?_⟩⟩
  · exact h1.2.2.2.1 (qF (-180)) (qF 180) (qF 1, false) (by decide)
  · exact thm_C2_sign_positive.2 calc_diff_abs
      (fun a b _ _ => abs_mag_sign_pos a b) (qF 1) true 3 _
      [(qF 1, qF 3, 0), (F64.nan false, qF 2, 1)] rfl
      (by intro p hp; fin_cases hp <;> exact ⟨by decide, by decide⟩)

/-! ## Claim C5 -/

theorem mergeAt_append (pre l : List RBucket) (k1 : Bool) :
    mergeAt (pre ++ l) pre.length k1 = pre ++ mergeAt l 0 k1 := by
  induction pre with
  | nil => rfl
  | cons a pre ih =>
    simp only [List.cons_append, List.length_cons, mergeAt, ih]

theorem exists_decomp (l : List RBucket) (j : ℕ) (h : j + 1 < l.length) :
    ∃ pre a b post, l = pre ++ a :: b :: post ∧ pre.length = j := by
  induction j generalizing l with
  | zero =>
    cases l with
    | nil => simp at h
    | cons a l2 =>
      cases l2 with
      | nil => simp at h
      | cons b post => exact ⟨[], a, b, post, rfl, rfl⟩
  | succ j ih =>
    cases l with
    | nil => simp at h
    | cons a rest =>
      have hr : j + 1 < rest.length := by
        simp only [List.length_cons] at h
        omega
      obtain ⟨pre, x, y, post, heq, hlen⟩ := ih rest hr
      exact ⟨a :: pre, x, y, post, by rw [heq]; rfl, by simp [hlen]⟩

theorem mergeAt_decomp (pre post : List RBucket) (a b : RBucket) (k1 : Bool) :
    mergeAt (pre ++ a :: b :: post) pre.length k1 = pre ++ mergeB a b k1 :: post := by
  rw [mergeAt_append]
  rfl

theorem length_mergeAt (l : List RBucket) (j : ℕ) (k1 : Bool) (h : j + 1 < l.length) :
    (mergeAt l j k1).length + 1 = l.length := by
  obtain ⟨pre, a, b, post, rfl, rfl⟩ := exists_decomp l j h
  rw [mergeAt_decomp]
  simp only [List.length_append, List.length_cons]
  omega

theorem bsum_mergeAt (l : List RBucket) (j : ℕ) (k1 : Bool) (h : j + 1 < l.length) :
    bsum (mergeAt l j k1) = bsum l := by
  obtain ⟨pre, a, b, post, rfl, rfl⟩ := exists_decomp l j h
  rw [mergeAt_decomp]
  simp only [bsum, List.map_append, List.map_cons, List.sum_append, List.sum_cons, mergeB]
  omega

/-- A bucket covers an exponent when the exponent lies in its merged range. -/
def InRange (bk : RBucket) (k : ℤ) : Prop := bk.emin ≤ k ∧ k ≤ bk.emax

instance (bk : RBucket) (k : ℤ) : Decidable (InRange bk k) := by
  unfold InRange
  infer_instance

/-- The loop invariant of `reduced_histo` relative to the original
exponent/count list `o`: ranges are well-formed and strictly ordered, every
original exponent is covered by some bucket, and every bucket's count is the
total original count of the exponents inside its range. -/
def HInv (o : List (ℤ × ℕ)) (l : List RBucket) : Prop :=
  (∀ bk ∈ l, bk.emin ≤ bk.emax) ∧
  List.Pairwise (fun u v => u.emax < v.emin) l ∧
  (∀ p ∈ o, ∃ bk ∈ l, InRange bk p.1) ∧
  (∀ bk ∈ l, bk.count = osum (o.filter (fun p => decide (InRange bk p.1))))

theorem osum_filter_split (o : List (ℤ × ℕ)) (P Q R : ℤ × ℕ → Bool)
    (h : ∀ p ∈ o, (R p = true ↔ (P p = true ∨ Q p = true)) ∧ ¬(P p = true ∧ Q p = true)) :
    osum (o.filter R) = osum (o.filter P) + osum (o.filter Q) := by
  induction o with
  | nil => rfl
  | cons p rest ih =>
    have hp := h p (by simp)
    have hrest := ih (fun q hq => h q (List.mem_cons_of_mem _ hq))
    simp only [List.filter_cons]
    cases hP : P p with
    | true =>
      cases hQ : Q p with
      | true => exact absurd ⟨hP, hQ⟩ hp.2
      | false =>
        have hR : R p = true := hp.1.mpr (Or.inl hP)
        simp only [hR, hP, hQ, if_true, if_false, Bool.false_eq_true]
        simp only [osum, List.map_cons, List.sum_cons]
        have := hrest
        simp only [osum] at this
        omega
    | false =>
      cases hQ : Q p with
      | true =>
        have hR : R p = true := hp.1.mpr (Or.inr hQ)
        simp only [hR, hP, hQ, if_true, if_false, Bool.false_eq_true]
        simp only [osum, List.map_cons, List.sum_cons]
        have := hrest
        simp only [osum] at this
        omega
      | false =>
        have hR : R p = false := by
          cases hRv : R p with
          | false => rfl
          | true =>
            rcases hp.1.mp hRv with hc | hc
            · rw [hP] at hc; exact absurd hc (by simp)
            · rw [hQ] at hc; exact absurd hc (by simp)
        simp only [hR, hP, hQ, Bool.false_eq_true, if_false]
        exact hrest

/-- Merging two adjacent buckets preserves the reduction invariant. -/
theorem hinv_merge (o : List (ℤ × ℕ)) (pre post : List RBucket) (a b : RBucket) (k1 : Bool)
    (hinv : HInv o (pre ++ a :: b :: post)) :
    HInv o (pre ++ mergeB a b k1 :: post) := by
  obtain ⟨hwf, hpw, hcov, hcnt⟩ := hinv
  rw [List.pairwise_append] at hpw
  obtain ⟨hpw_pre, hpw_mid, hcross⟩ := hpw
  rw [List.pairwise_cons] at hpw_mid
  obtain ⟨ha_rel, hpw_mid2⟩ := hpw_mid
  rw [List.pairwise_cons] at hpw_mid2
  obtain ⟨hb_rel, hpw_post⟩ := hpw_mid2
  have hab : a.emax < b.emin := ha_rel b (by simp)
  have ha_wf : a.emin ≤ a.emax := hwf a (by simp)
  have hb_wf : b.emin ≤ b.emax := hwf b (by simp)
  have hcmin : (mergeB a b k1).emin = a.emin := by
    simp only [mergeB]
    omega
  have hcmax : (mergeB a b k1).emax = b.emax := by
    simp only [mergeB]
    omega
  have hgap : ∀ p ∈ o, ¬(a.emax < p.1 ∧ p.1 < b.emin) := by
    rintro p hp ⟨hg1, hg2⟩
    obtain ⟨bk, hbk, hbr⟩ := hcov p hp
    obtain ⟨hbr1, hbr2⟩ := hbr
    rcases List.mem_append.1 hbk with hbk | hbk
    · have hx := hcross bk hbk a (by simp)
      omega
    · rcases List.mem_cons.1 hbk with rfl | hbk
      · omega
      · rcases List.mem_cons.1 hbk with rfl | hbk
        · omega
        · have hx := hb_rel bk hbk
          omega
  refine ⟨?_, ?_, ?_, ?_⟩
  · intro bk hbk
    rcases List.mem_append.1 hbk with hbk | hbk
    · exact hwf bk (List.mem_append_left _ hbk)
    · rcases List.mem_cons.1 hbk with rfl | hbk
      · rw [hcmin, hcmax]
        omega
      · exact hwf bk (List.mem_append_right _ (by simp [hbk]))
  · rw [List.pairwise_append]
    refine ⟨hpw_pre, ?_, ?_⟩
    · rw [List.pairwise_cons]
      refine ⟨?_, hpw_post⟩
      intro y hy
      rw [hcmax]
      exact hb_rel y hy
    · intro x hx y hy
      rcases List.mem_cons.1 hy with rfl | hy
      · rw [hcmin]
        exact hcross x hx a (by simp)
      · exact hcross x hx y (by simp [hy])
  · intro p hp
    obtain ⟨bk, hbk, hbr⟩ := hcov p hp
    rcases List.mem_append.1 hbk with hbk | hbk
    · exact ⟨bk, List.mem_append_left _ hbk, hbr⟩
    · rcases List.mem_cons.1 hbk with rfl | hbk
      · refine ⟨mergeB bk b k1, List.mem_append_right _ (by simp), ?_, ?_⟩
        · rw [hcmin]
          exact hbr.1
        · rw [hcmax]
          obtain ⟨h1, h2⟩ := hbr
          omega
      · rcases List.mem_cons.1 hbk with rfl | hbk
        · refine ⟨mergeB a bk k1, List.mem_append_right _ (by simp), ?_, ?_⟩
          · rw [hcmin]
            obtain ⟨h1, h2⟩ := hbr
            omega
          · rw [hcmax]
            exact hbr.2
        · exact ⟨bk, List.mem_append_right _ (by simp [hbk]), hbr⟩
  · intro bk hbk
    rcases List.mem_append.1 hbk with hbk | hbk
    · exact hcnt bk (List.mem_append_left _ hbk)
    · rcases List.mem_cons.1 hbk with rfl | hbk
      · have hsplit : osum (o.filter (fun p => decide (InRange (mergeB a b k1) p.1)))
            = osum (o.filter (fun p => decide (InRange a p.1)))
              + osum (o.filter (fun p => decide (InRange b p.1))) := by
          apply osum_filter_split
          intro p hp
          have hg := hgap p hp
          simp only [decide_eq_true_iff]
          constructor
          · constructor
            · rintro ⟨h1, h2⟩
              rw [hcmin] at h1
              rw [hcmax] at h2
              unfold InRange
              omega
            · rintro (⟨h1, h2⟩ | ⟨h1, h2⟩) <;>
                exact ⟨by rw [hcmin]; omega, by rw [hcmax]; omega⟩
          · rintro ⟨⟨h1, h2⟩, ⟨h3, h4⟩⟩
            omega
        have hcc : (mergeB a b k1).count = a.count + b.count := rfl
        rw [hcc, hsplit, hcnt a (by simp), hcnt b (by simp)]
      · exact hcnt bk (List.mem_append_right _ (by simp [hbk]))

theorem foldl_min_attained (rest : List RBucket) :
    ∀ a : ℕ, rest.foldl (fun m x => min m x.count) a = a ∨
      ∃ x ∈ rest, rest.foldl (fun m x => min m x.count) a = x.count := by
  induction rest with
  | nil => intro a; exact Or.inl rfl
  | cons x rest ih =>
    intro a
    simp only [List.foldl_cons]
    rcases ih (min a x.count) with h | ⟨y, hy, h⟩
    · rw [h]
      rcases Nat.le_total a x.count with hle | hle
      · exact Or.inl (Nat.min_eq_left hle)
      · exact Or.inr ⟨x, by simp, Nat.min_eq_right hle⟩
    · exact Or.inr ⟨y, by simp [hy], h⟩

theorem minCount_attained (l : List RBucket) (hne : l ≠ []) :
    ∃ bk ∈ l, bk.count = minCount l := by
  cases l with
  | nil => exact absurd rfl hne
  | cons b rest =>
    unfold minCount
    rcases foldl_min_attained rest b.count with h | ⟨x, hx, h⟩
    · exact ⟨b, by simp, h.symm⟩
    · exact ⟨x, by simp [hx], h.symm⟩

theorem idxSmallest_lt_length (l : List RBucket) (hne : l ≠ []) :
    idxSmallest l < l.length := by
  unfold idxSmallest
  apply List.findIdx_lt_length_of_exists
  obtain ⟨bk, hmem, hcnt⟩ := minCount_attained l hne
  exact ⟨bk, hmem, by simp [hcnt]⟩

/-- Every collapse iteration is a merge of two adjacent buckets at a legal
position. -/
theorem stepB_spec (l : List RBucket) (h2 : 2 ≤ l.length) :
    ∃ j k1, j + 1 < l.length ∧ stepB l = mergeAt l j k1 := by
  have hne : l ≠ [] := by
    intro h
    rw [h] at h2
    simp at h2
  have hi := idxSmallest_lt_length l hne
  unfold stepB
  by_cases h0 : idxSmallest l = 0
  · exact ⟨0, false, by omega, by rw [if_pos h0]⟩
  · by_cases hlast : l.length - 1 ≤ idxSmallest l
    · refine ⟨idxSmallest l - 1, true, by omega, ?_⟩
      rw [if_neg h0, if_pos hlast]
    · by_cases hcmp : (l.getD (idxSmallest l + 1) default).count
          < (l.getD (idxSmallest l - 1) default).count
      · refine ⟨idxSmallest l, false, by omega, ?_⟩
        rw [if_neg h0, if_neg hlast, if_pos hcmp]
      · refine ⟨idxSmallest l - 1, true, by omega, ?_⟩
        rw [if_neg h0, if_neg hlast, if_neg hcmp]

theorem stepB_length (l : List RBucket) (h2 : 2 ≤ l.length) :
    (stepB l).length + 1 = l.length := by
  obtain ⟨j, k1, hj, hs⟩ := stepB_spec l h2
  rw [hs]
  exact length_mergeAt l j k1 hj

theorem stepB_bsum (l : List RBucket) (h2 : 2 ≤ l.length) :
    bsum (stepB l) = bsum l := by
  obtain ⟨j, k1, hj, hs⟩ := stepB_spec l h2
  rw [hs]
  exact bsum_mergeAt l j k1 hj

theorem stepB_hinv (o : List (ℤ × ℕ)) (l : List RBucket) (h2 : 2 ≤ l.length)
    (hinv : HInv o l) : HInv o (stepB l) := by
  obtain ⟨j, k1, hj, hs⟩ := stepB_spec l h2
  rw [hs]
  obtain ⟨pre, a, b, post, rfl, rfl⟩ := exists_decomp l j hj
  rw [mergeAt_decomp]
  exact hinv_merge o pre post a b k1 hinv

theorem reduceLoop_hinv (o : List (ℤ × ℕ)) (maxB : ℕ) (hB : 1 ≤ maxB) :
    ∀ (f : ℕ) (l : List RBucket), HInv o l → HInv o (reduceLoop f maxB l) := by
  intro f
  induction f with
  | zero => intro l h; exact h
  | succ f ih =>
    intro l h
    unfold reduceLoop
    split
    · next hlen => exact ih (stepB l) (stepB_hinv o l (by omega) h)
    · exact h

theorem reduceLoop_bsum (maxB : ℕ) (hB : 1 ≤ maxB) :
    ∀ (f : ℕ) (l : List RBucket), bsum (reduceLoop f maxB l) = bsum l := by
  intro f
  induction f with
  | zero => intro l; rfl
  | succ f ih =>
    intro l
    unfold reduceLoop
    split
    · next hlen => rw [ih (stepB l), stepB_bsum l (by omega)]
    · rfl

theorem reduceLoop_length (maxB : ℕ) (hB : 1 ≤ maxB) :
    ∀ (f : ℕ) (l : List RBucket), l.length ≤ maxB + f →
      (reduceLoop f maxB l).length ≤ maxB := by
  intro f
  induction f with
  | zero =>
    intro l hl
    simpa using hl
  | succ f ih =>
    intro l hl
    unfold reduceLoop
    split
    · next hlen =>
      apply ih
      have := stepB_length l (by omega)
      omega
    · next hlen => omega

theorem osum_filter_singleton (o : List (ℤ × ℕ))
    (hsort : List.Pairwise (fun p q => p.1 < q.1) o) :
    ∀ p ∈ o, osum (o.filter (fun q =>
      decide (InRange ⟨p.1, p.1, p.1, p.2⟩ q.1))) = p.2 := by
  induction o with
  | nil =>
    intro p hp
    simp at hp
  | cons h rest ih =>
    rw [List.pairwise_cons] at hsort
    obtain ⟨hhead, hrest⟩ := hsort
    intro p hp
    rcases List.mem_cons.1 hp with rfl | hp
    · simp only [List.filter_cons]
      rw [if_pos (by simp [InRange])]
      have hnil : rest.filter (fun q => decide (InRange ⟨p.1, p.1, p.1, p.2⟩ q.1)) = [] := by
        rw [List.filter_eq_nil_iff]
        intro q hq
        have := hhead q hq
        simp only [decide_eq_true_iff, InRange]
        omega
      rw [hnil]
      simp [osum]
    · simp only [List.filter_cons]
      rw [if_neg ?hfail]
      case hfail =>
        have := hhead p hp
        simp only [decide_eq_true_iff, InRange]
        omega
      exact ih hrest p hp

theorem bsum_init (o : List (ℤ × ℕ)) : bsum (initBuckets o) = osum o := by
  unfold bsum osum initBuckets
  rw [List.map_map]
  rfl

theorem hinv_init (o : List (ℤ × ℕ))
    (hsort : List.Pairwise (fun p q => p.1 < q.1) o) : HInv o (initBuckets o) := by
  refine ⟨?_, ?_, ?_, ?_⟩
  · intro bk hbk
    obtain ⟨p, _, rfl⟩ := List.mem_map.1 hbk
    exact le_refl _
  · unfold initBuckets
    rw [List.pairwise_map]
    exact hsort
  · intro p hp
    exact ⟨⟨p.1, p.1, p.1, p.2⟩, List.mem_map_of_mem _ hp, le_refl _, le_refl _⟩
  · intro bk hbk
    obtain ⟨p, hp, rfl⟩ := List.mem_map.1 hbk
    exact (osum_filter_singleton o hsort p hp).symm

theorem cover_unique {l : List RBucket} (hwf : ∀ bk ∈ l, bk.emin ≤ bk.emax)
    (hpw : List.Pairwise (fun u v => u.emax < v.emin) l)
    {k : ℤ} {bk bk' : RBucket} (h1 : bk ∈ l) (h2 : bk' ∈ l)
    (hr1 : InRange bk k) (hr2 : InRange bk' k) : bk' = bk := by
  by_contra hne
  have hpw2 : List.Pairwise (fun u v : RBucket => u.emax < v.emin ∨ v.emax < u.emin) l :=
    hpw.imp (fun h => Or.inl h)
  have hsymm : Symmetric (fun u v : RBucket => u.emax < v.emin ∨ v.emax < u.emin) := by
    intro u v h
    rcases h with h | h
    · exact Or.inr h
    · exact Or.inl h
  have hrel := List.Pairwise.forall hsymm hpw2 h2 h1 hne
  obtain ⟨hr1a, hr1b⟩ := hr1
  obtain ⟨hr2a, hr2b⟩ := hr2
  rcases hrel with h | h <;> omega

theorem reduced_histo_props (maxB : ℕ) (o : List (ℤ × ℕ)) (r : List RBucket)
    (hB : 3 ≤ maxB) (hsort : List.Pairwise (fun p q => p.1 < q.1) o)
    (h : reduced_histo maxB o = some r) :
    bsum r = osum o ∧ r.length ≤ maxB ∧ HInv o r := by
  unfold reduced_histo at h
  rw [if_pos (by omega : 2 < maxB)] at h
  simp only [Option.some.injEq] at h
  have hB1 : 1 ≤ maxB := by omega
  refine ⟨?_, ?_, ?_⟩
  · rw [← h, reduceLoop_bsum maxB hB1, bsum_init]
  · rw [← h]
    apply reduceLoop_length maxB hB1
    omega
  · rw [← h]
    exact reduceLoop_hinv o maxB hB1 _ _ (hinv_init o hsort)

/-- C5: enforced at construction, `max_display_buckets ≥ 3`; for every
histogram bucket state (the key-sorted entry list `o` of `log10_buckets`)
with that bound, the reduction loop completes (it is a total function whose
every iteration removes exactly one bucket) and yields a list whose total
count equals the pre-reduction total, whose length is at most
`max_display_buckets`, in which every original exponent lies in the range of
exactly one surviving bucket whose count is the sum of the original counts
of exactly the exponents in its range; and each single merge produces a
bucket whose range contains both merged ranges and whose count is their
sum. -/
theorem thm_C5_reduction :
    (∀ (n : ℕ) (h : LogHistogram), LogHistogram.new n = some h →
       3 ≤ h.max_display_buckets) ∧
    (∀ (maxB : ℕ) (o : List (ℤ × ℕ)) (r : List RBucket),
       3 ≤ maxB → List.Pairwise (fun p q => p.1 < q.1) o →
       reduced_histo maxB o = some r →
       bsum r = osum o ∧
       r.length ≤ maxB ∧
       (∀ p ∈ o, ∃ bk ∈ r, InRange bk p.1 ∧
          ∀ bk' ∈ r, InRange bk' p.1 → bk' = bk) ∧
       (∀ bk ∈ r, bk.count = osum (o.filter (fun p => decide (InRange bk p.1))))) ∧
    (∀ (a b : RBucket) (k1 : Bool),
       (mergeB a b k1).emin ≤ a.emin ∧ (mergeB a b k1).emin ≤ b.emin ∧
       a.emax ≤ (mergeB a b k1).emax ∧ b.emax ≤ (mergeB a b k1).emax ∧
       (mergeB a b k1).count = a.count + b.count) := by
  refine ⟨?_, ?_, ?_⟩
  · intro n h hn
    unfold LogHistogram.new at hn
    split at hn
    · next hlt =>
      simp only [Option.some.injEq] at hn
      rw [← hn]
      show 3 ≤ n
      omega
    · exact absurd hn (by simp)
  · intro maxB o r hB hsort h
    obtain ⟨hsum, hlen, hwf, hpw, hcov, hcnt⟩ := reduced_histo_props maxB o r hB hsort h
    refine ⟨hsum, hlen, ?_, hcnt⟩
    intro p hp
    obtain ⟨bk, hbk, hr⟩ := hcov p hp
    exact ⟨bk, hbk, hr, fun bk1 hbk1 hr1 => cover_unique hwf hpw hbk hbk1 hr hr1⟩
  · intro a b k1
    refine ⟨?_, ?_, ?_, ?_, rfl⟩ <;> simp only [mergeB] <;> omega

/-- Witness for C5 on a concrete four-bucket state reduced to three
buckets. -/
theorem wit_C5_reduction :
    ((3 : ℕ) ≤ 3 ∧
     List.Pairwise (fun p q : ℤ × ℕ => p.1 < q.1) [(0, 1), (1, 2), (2, 3), (5, 1)] ∧
     reduced_histo 3 [(0, 1), (1, 2), (2, 3), (5, 1)]
       = some [⟨1, 0, 1, 3⟩, ⟨2, 2, 2, 3⟩, ⟨5, 5, 5, 1⟩]) ∧
    (bsum [⟨1, 0, 1, 3⟩, ⟨2, 2, 2, 3⟩, ⟨5, 5, 5, 1⟩]
        = osum [(0, 1), (1, 2), (2, 3), (5, 1)] ∧
     ([⟨1, 0, 1, 3⟩, ⟨2, 2, 2, 3⟩, ⟨5, 5, 5, 1⟩] : List RBucket).length ≤ 3 ∧
     (∀ p ∈ [((0 : ℤ), (1 : ℕ)), (1, 2), (2, 3), (5, 1)],
        ∃ bk ∈ ([⟨1, 0, 1, 3⟩, ⟨2, 2, 2, 3⟩, ⟨5, 5, 5, 1⟩] : List RBucket),
          InRange bk p.1 ∧
          ∀ bk' ∈ ([⟨1, 0, 1, 3⟩, ⟨2, 2, 2, 3⟩, ⟨5, 5, 5, 1⟩] : List RBucket),
            InRange bk' p.1 → bk' = bk) ∧
     (∀ bk ∈ ([⟨1, 0, 1, 3⟩, ⟨2, 2, 2, 3⟩, ⟨5, 5, 5, 1⟩] : List RBucket),
        bk.count = osum (([(0, 1), (1, 2), (2, 3), (5, 1)] : List (ℤ × ℕ)).filter
          (fun p => decide (InRange bk p.1))))) ∧
    (3 ≤ (LogHistogram.mk 0 0 0 5 (fun _ => 0)).max_display_buckets) :=
  ⟨⟨by decide, by decide, by decide⟩,
   thm_C5_reduction.2.1 3 [(0, 1), (1, 2), (2, 3), (5, 1)]
     [⟨1, 0, 1, 3⟩, ⟨2, 2, 2, 3⟩, ⟨5, 5, 5, 1⟩] (by decide) (by decide) (by decide),
   thm_C5_reduction.1 5 (LogHistogram.mk 0 0 0 5 (fun _ => 0)) rfl⟩
